import Mathlib

/-!
# Tagger: the tag index and the path sandbox

A shallow embedding of `cmd/tagger/main.go` and of the confinement check of
`internal/server/server.go`.

Modelling conventions.

* A Go `map[K]V` that is allocated is an association list with pairwise
  distinct keys (`GoMap`); a map field of a struct is an `Option` of it,
  `none` being the nil map.  Reading a nil map finds nothing, writing to it
  panics.  A `*FileTags` stored in a map is an `Option FileTags`, `none`
  being the nil pointer; the pointers stored under different keys are not
  shared, as in every database that the program builds.
* A function that can panic returns an `Option`, `none` being the panic.
* Only `lookup`, `insert` and the set of entries of a map are used, so the
  order of the list carries no meaning; wherever the source ranges over a
  map, the visiting order is an explicit argument `visit` and the theorems
  hold for every `visit` that returns a permutation of the entries.
* Go's `int` is the 64-bit two's complement integer: `db.LastTag += 1` is
  `wrapInt (db.LastTag + 1)`.
* A Go string is a byte string (`GoString`), well-formed UTF-8 or not;
  `utf8` gives the bytes of a text.
* The operating system is a parameter: which files exist, what a file
  decodes to, the working directory.
-/

namespace Tagger

/-! ## Data model (`main.go`, lines 13-24) -/

/-- A Go string: a sequence of bytes. -/
abbrev GoString := List UInt8

/-- The bytes of a text in UTF-8. -/
def utf8 (s : String) : GoString := s.toUTF8.data.toList

/-- An allocated Go `map[K]V`: finitely many entries with pairwise distinct
keys. -/
abbrev GoMap (K V : Type) := AList (fun _ : K => V)

/-- The read `v, ok := m[k]` on a map that may be nil: `none` is `ok = false`. -/
def mapGet {K V : Type} [DecidableEq K] (m : Option (GoMap K V)) (k : K) : Option V :=
  match m with
  | none => none
  | some a => a.lookup k

/-- The keys of a map that may be nil. -/
def mapKeys {K V : Type} (m : Option (GoMap K V)) : List K :=
  match m with
  | none => []
  | some a => a.keys

/-- The entries of a map that may be nil, as `range` finds them. -/
def mapEntries {K V : Type} (m : Option (GoMap K V)) : List (Sigma fun _ : K => V) :=
  match m with
  | none => []
  | some a => a.entries

/-- Two's complement wrap-around of Go's 64-bit `int`. -/
def wrapInt (x : Int) : Int :=
  (x + 9223372036854775808) % 18446744073709551616 - 9223372036854775808

/-- The largest value of Go's 64-bit `int`. -/
def maxInt : Int := 9223372036854775807

/-- The struct `FileTags`. -/
structure FileTags where
  Hash : GoString
  Tags : List Int
deriving DecidableEq, Repr

/-- The struct `Database`; `Version` is the array `[3]int`, `Entries` is
`map[string]*FileTags`. -/
structure Database where
  Version : Int × Int × Int
  Entries : Option (GoMap GoString (Option FileTags))
  Tags : Option (GoMap Int GoString)
  TagsByName : Option (GoMap GoString Int)
  LastTag : Int

/-- The database `loadDatabase` builds before it looks at the file
(lines 27-31): three fresh maps, version `[1,0,0]`, `LastTag` zero. -/
def emptyDatabase : Database :=
  { Version := (1, 0, 0)
    Entries := some ∅
    Tags := some ∅
    TagsByName := some ∅
    LastTag := 0 }

/-! ## `addFileTags` (lines 72-93) -/

/-- Lines 82-88, the first half of the loop body: look the name up in
`TagsByName`; an unknown name gets the id `LastTag + 1` and is written to
both maps, which panics when one of them is nil.  Returns the database and
the `tid` of line 91. -/
def resolveTag (db : Database) (tag : GoString) : Option (Database × Int) :=
  match mapGet db.TagsByName tag with
  | some tid => some (db, tid)
  | none =>
    match db.TagsByName, db.Tags with
    | some byName, some tags =>
      some ({ db with
          LastTag := wrapInt (db.LastTag + 1)
          TagsByName := some (byName.insert tag (wrapInt (db.LastTag + 1)))
          Tags := some (tags.insert (wrapInt (db.LastTag + 1)) tag) },
        wrapInt (db.LastTag + 1))
    | _, _ => none

/-- The loop of lines 80-92 on the database and the pointer `entry`: each
name is resolved and its id appended to `entry.Tags`, which panics when
`entry` is nil. -/
def addFileTagsLoop (db : Database) (entry : Option FileTags) :
    List GoString → Option (Database × Option FileTags)
  | [] => some (db, entry)
  | tag :: rest =>
    match resolveTag db tag with
    | none => none
    | some r =>
      match entry with
      | none => none
      | some e => addFileTagsLoop r.1 (some { e with Tags := e.Tags ++ [r.2] }) rest

/-- The function `addFileTags`.  `entry` is the pointer found under
`fileName`; when none is found a fresh `FileTags` is stored, which panics on
a nil `Entries`.  The map holds the pointer, so what the loop leaves behind
it is what the map shows afterwards. -/
def addFileTags (db : Database) (fileName : GoString) (tags : List GoString) :
    Option Database :=
  match mapGet db.Entries fileName with
  | some entry =>
    match addFileTagsLoop db entry tags with
    | none => none
    | some st => some { st.1 with Entries := db.Entries.map fun m => m.insert fileName st.2 }
  | none =>
    match db.Entries with
    | none => none
    | some m =>
      match addFileTagsLoop db (some { Hash := [], Tags := [] }) tags with
      | none => none
      | some st => some { st.1 with Entries := some (m.insert fileName st.2) }

/-- A sequence of `addFileTags` calls, each a file name with its tag names;
a panic ends the program. -/
def addFileTagsCalls (db : Database) : List (GoString × List GoString) → Option Database
  | [] => some db
  | c :: cs =>
    match addFileTags db c.1 c.2 with
    | none => none
    | some d => addFileTagsCalls d cs

/-! ## `searchByTag` (lines 95-111) -/

/-- The inner loop of lines 103-108: does the sequence hold `tid`? -/
def hasTag (tid : Int) : List Int → Bool
  | [] => false
  | t :: rest => if t = tid then true else hasTag tid rest

/-- The outer loop of lines 102-109 over the entries in the order visited;
`current.Tags` panics on a nil `current`. -/
def searchLoop (tid : Int) (result : List GoString) :
    List (Sigma fun _ : GoString => Option FileTags) → Option (List GoString)
  | [] => some result
  | p :: rest =>
    match p.2 with
    | none => none
    | some current =>
      searchLoop tid (if hasTag tid current.Tags then result ++ [p.1] else result) rest

/-- The function `searchByTag`; `visit` is the order in which `range`
visits `db.Entries`. -/
def searchByTag (visit : List (Sigma fun _ : GoString => Option FileTags) →
    List (Sigma fun _ : GoString => Option FileTags)) (db : Database) (tag : GoString) :
    Option (List GoString) :=
  match mapGet db.TagsByName tag with
  | none => some []
  | some tid => searchLoop tid [] (visit (mapEntries db.Entries))


/-! ## Strings in JSON: `json.Marshal` writes well-formed UTF-8 -/

/-- For a lead byte from `0x80` on: the length of the sequence it starts and
the range of the second byte (the tables `first` and `acceptRanges` of
Go's `unicode/utf8`); `none` for a byte that starts no sequence. -/
def leadInfo (b : UInt8) : Option (Nat × UInt8 × UInt8) :=
  if b < 0xC2 then none
  else if b ≤ 0xDF then some (2, 0x80, 0xBF)
  else if b = 0xE0 then some (3, 0xA0, 0xBF)
  else if b = 0xED then some (3, 0x80, 0x9F)
  else if b ≤ 0xEF then some (3, 0x80, 0xBF)
  else if b = 0xF0 then some (4, 0x90, 0xBF)
  else if b ≤ 0xF3 then some (4, 0x80, 0xBF)
  else if b = 0xF4 then some (4, 0x80, 0x8F)
  else none

/-- A continuation byte, `0x80` to `0xBF`. -/
def isContinuation (b : UInt8) : Bool := 0x80 ≤ b && b ≤ 0xBF

/-- The size of the well-formed UTF-8 sequence at the head of a non-empty
string, as `utf8.DecodeRuneInString` finds it; `none` where it reports
`RuneError` with size 1. -/
def runeSize : GoString → Option Nat
  | [] => none
  | b0 :: rest =>
    if b0 < 0x80 then some 1
    else
      match leadInfo b0, rest with
      | some (2, lo, hi), b1 :: _ =>
        if lo ≤ b1 && b1 ≤ hi then some 2 else none
      | some (3, lo, hi), b1 :: b2 :: _ =>
        if lo ≤ b1 && b1 ≤ hi && isContinuation b2 then some 3 else none
      | some (4, lo, hi), b1 :: b2 :: b3 :: _ =>
        if lo ≤ b1 && b1 ≤ hi && isContinuation b2 && isContinuation b3 then some 4 else none
      | _, _ => none

/-- The string that `json.Marshal` writes for a Go string, read back: every
byte that starts no well-formed sequence is replaced by U+FFFD, the bytes
`EF BF BD`.  The first argument bounds the number of steps. -/
def toValidUTF8 : Nat → GoString → GoString
  | 0, _ => []
  | fuel + 1, s =>
    match s with
    | [] => []
    | b :: rest =>
      match runeSize (b :: rest) with
      | some n => (b :: rest).take n ++ toValidUTF8 fuel ((b :: rest).drop n)
      | none => [0xEF, 0xBF, 0xBD] ++ toValidUTF8 fuel rest

/-- A Go string after `json.Marshal` and `json.Unmarshal`. -/
def jsonText (s : GoString) : GoString := toValidUTF8 s.length s

/-- Go's `utf8.ValidString`, with a bound on the number of steps. -/
def validUTF8Steps : Nat → GoString → Bool
  | 0, s => s.isEmpty
  | fuel + 1, s =>
    match s with
    | [] => true
    | b :: rest =>
      match runeSize (b :: rest) with
      | some n => validUTF8Steps fuel ((b :: rest).drop n)
      | none => false

/-- Go's `utf8.ValidString`. -/
def validUTF8 (s : GoString) : Bool := validUTF8Steps s.length s

/-! ## The snapshot file: `json.Marshal` and `json.Unmarshal` -/

/-- Apply a function to every value of a map, keys unchanged. -/
def mapValues {K V W : Type} (f : V → W) (m : GoMap K V) : GoMap K W :=
  ⟨m.entries.map (fun p => ⟨p.1, f p.2⟩), by
    have h := m.nodupKeys
    unfold List.NodupKeys List.keys at h ⊢
    rw [List.map_map]
    exact h⟩

/-- A member of a JSON object whose Go field is a map: not there, `null`,
or an object. -/
inductive JsonMember (α : Type)
  | absent
  | null
  | present (a : α)

/-- The JSON object of one `FileTags`: the members `h` and `t`; `none` is a
member that is absent or `null`, which decode alike. -/
structure FileTagsJson where
  h : Option GoString
  t : Option (List Int)
deriving DecidableEq, Repr

/-- The JSON object of a snapshot file as the decoder sees it.  `v` is an
array of any length whose elements are integers or `null` (`none`), and `l`
is an integer; the member itself is `none` when absent or `null`, which
decode alike.  `e` is the list of the members of the object in the order
written, a path with a `FileTags` object or with `null`; a path may occur
twice.  `t` maps ids to names; a name that is `null` decodes as the empty
string and is held as such. -/
structure DatabaseJson where
  v : Option (List (Option Int))
  e : JsonMember (List (GoString × Option FileTagsJson))
  t : JsonMember (GoMap Int GoString)
  l : Option Int

/-- Encoding of a `FileTags` under the tags `json:"h,omitempty"` and
`json:"t,omitempty"`: an empty string and an empty slice are left out. -/
def marshalFileTags (f : FileTags) : FileTagsJson :=
  { h := if f.Hash = [] then none else some (jsonText f.Hash)
    t := if f.Tags = [] then none else some f.Tags }

/-- Decoding of a `FileTags` into a fresh struct: an absent member leaves
the zero value. -/
def unmarshalFileTags (j : FileTagsJson) : FileTags :=
  { Hash := j.h.getD [], Tags := j.t.getD [] }

/-- The order of Go strings, byte by byte: `json.Marshal` writes the keys
of a map in this order. -/
def bytesLe : GoString → GoString → Bool
  | [], _ => true
  | _ :: _, [] => false
  | a :: s, b :: t => a < b || (a = b && bytesLe s t)

/-- The members that `json.Marshal` writes for `Entries`: the keys in
order, a nil pointer as `null`. -/
def marshalEntries (m : GoMap GoString (Option FileTags)) :
    List (GoString × Option FileTagsJson) :=
  (m.entries.insertionSort fun p q => bytesLe p.1 q.1 = true).map fun p =>
    (jsonText p.1, p.2.map marshalFileTags)

/-- What `json.Marshal(db)` writes, by the struct tags of `Database`
(lines 19-23): the array `Version` always (`omitempty` never drops an
array of length 3), `Entries` and `Tags` unless they are nil or have no
entry, `LastTag` unless it is zero, `TagsByName` never (`json:"-"`). -/
def marshal (db : Database) : DatabaseJson :=
  { v := some [some db.Version.1, some db.Version.2.1, some db.Version.2.2]
    e := match db.Entries with
      | none => JsonMember.absent
      | some m =>
        if m.entries = [] then JsonMember.absent else JsonMember.present (marshalEntries m)
    t := match db.Tags with
      | none => JsonMember.absent
      | some m =>
        if m.entries = [] then JsonMember.absent
        else JsonMember.present (mapValues jsonText m)
    l := if db.LastTag = 0 then none else some db.LastTag }

/-- One element of the array `[3]int` after decoding: zero when the JSON
array is too short, unchanged when the JSON element is `null`, else the
JSON element. -/
def versionElement (old : Int) (x : Option (Option Int)) : Int :=
  match x with
  | none => 0
  | some none => old
  | some (some n) => n

/-- The array `[3]int` decoded from a JSON array into the array `old`:
missing elements are zero, `null` leaves an element as it is, extra
elements are dropped. -/
def versionOfArray (old : Int × Int × Int) (xs : List (Option Int)) : Int × Int × Int :=
  (versionElement old.1 xs[0]?, versionElement old.2.1 xs[1]?, versionElement old.2.2 xs[2]?)

/-- The members of a JSON object stored into a map one after the other, a
later member replacing an earlier one of the same key. -/
def storeMembers (members : List (GoString × Option FileTagsJson))
    (m : GoMap GoString (Option FileTags)) : GoMap GoString (Option FileTags) :=
  members.foldl (fun acc p => acc.insert p.1 (p.2.map unmarshalFileTags)) m

/-- What `json.Unmarshal(data, &db)` does to `db`: a member that is absent
leaves the field as it is; `null` makes a map nil; an object is stored,
member by member, into the existing map, or into a new one when the map
is nil; `TagsByName` is not touched. -/
def unmarshal (doc : DatabaseJson) (db : Database) : Database :=
  { db with
    Version := match doc.v with
      | none => db.Version
      | some xs => versionOfArray db.Version xs
    Entries := match doc.e with
      | JsonMember.absent => db.Entries
      | JsonMember.null => none
      | JsonMember.present members => some (storeMembers members (db.Entries.getD ∅))
    Tags := match doc.t with
      | JsonMember.absent => db.Tags
      | JsonMember.null => none
      | JsonMember.present m => some (m ∪ db.Tags.getD ∅)
    LastTag := doc.l.getD db.LastTag }

/-- What is found at a file name: nothing (`os.Stat` reports that the file
does not exist), a file that `os.ReadFile` cannot read, content that
`json.Unmarshal` rejects, or content that decodes. -/
inductive FileState
  | missing
  | unreadable
  | malformed
  | json (doc : DatabaseJson)

/-- The disk: the state of every file name, whether `os.WriteFile`
succeeds there, and whether `os.ReadFile` succeeds on what was written
there (the permissions of an existing file, or the umask, can deny it). -/
structure Disk where
  file : GoString → FileState
  writable : GoString → Bool
  readable : GoString → Bool

/-- The errors `loadDatabase` returns. -/
inductive LoadError
  | read
  | decode
  | version
deriving DecidableEq, Repr

/-- The loop of lines 51-53 over the entries of `Tags` in the order
visited. -/
def rebuildTagsByName (visited : List (Sigma fun _ : Int => GoString))
    (byName : GoMap GoString Int) : GoMap GoString Int :=
  visited.foldl (fun m p => m.insert p.2 p.1) byName

/-- The function `loadDatabase`; `visit` is the order in which `range`
visits `db.Tags`.  `TagsByName` is the map made at line 30, which
`json.Unmarshal` leaves alone. -/
def loadDatabase (visit : List (Sigma fun _ : Int => GoString) →
    List (Sigma fun _ : Int => GoString)) (disk : Disk) (filename : GoString) :
    Except LoadError Database :=
  let db := emptyDatabase
  match disk.file filename with
  | .missing => .ok db
  | .unreadable => .error .read
  | .malformed => .error .decode
  | .json doc =>
    let db := unmarshal doc db
    if db.Version ≠ (1, 0, 0) then .error .version
    else .ok { db with
      TagsByName := some (rebuildTagsByName (visit (mapEntries db.Tags)) (db.TagsByName.getD ∅)) }

/-- The state of a file after `data` was written to it. -/
def written (disk : Disk) (filename : GoString) (doc : DatabaseJson) : FileState :=
  if disk.readable filename then FileState.json doc else FileState.unreadable

/-- The function `saveDatabase`: the encoded database replaces the file
when `os.WriteFile` succeeds.  `json.Marshal` has no failing case on a
`Database`.  The result is the disk afterwards, or `none` for an error. -/
def saveDatabase (disk : Disk) (filename : GoString) (db : Database) : Option Disk :=
  if disk.writable filename then
    some { disk with
      file := fun p => if p = filename then written disk filename (marshal db) else disk.file p }
  else none
/-! ## Paths: `expandPath` (lines 121-135) and `fileHandler` -/

/-- The path functions see the operating system through the working
directory (`none` when `os.Getwd` fails) and through `os.Stat` (`true`
when it succeeds). -/
structure PathEnv where
  cwd : Option GoString
  stat : GoString → Bool

/-- The path separator `/` of Unix, the byte `0x2F`. -/
def separator : UInt8 := 0x2F

/-- The byte `.`, `0x2E`. -/
def dot : UInt8 := 0x2E

/-- The path elements between separators. -/
def splitPath : GoString → List GoString
  | [] => [[]]
  | c :: cs =>
    if c = separator then [] :: splitPath cs
    else match splitPath cs with
      | [] => [[c]]
      | x :: xs => (c :: x) :: xs

/-- One element handled by `filepath.Clean`; the stack holds the elements
kept so far, the last one first.  Empty elements and `.` are dropped, `..`
removes the element before it, is dropped at the root and is kept at the
start of a relative path. -/
def cleanPush (rooted : Bool) (stack : List GoString) (elem : GoString) : List GoString :=
  if elem = [] ∨ elem = [dot] then stack
  else if elem = [dot, dot] then
    match stack with
    | [] => if rooted then [] else [elem]
    | top :: rest => if top = [dot, dot] then elem :: stack else rest
  else elem :: stack

/-- Elements joined by the separator. -/
def joinPath : List GoString → GoString
  | [] => []
  | [x] => x
  | x :: y :: rest => x ++ separator :: joinPath (y :: rest)

/-- Go's `filepath.Clean` on Unix. -/
def filepathClean (path : GoString) : GoString :=
  let rooted : Bool := path.head? = some separator
  let body := joinPath ((splitPath path).foldl (cleanPush rooted) []).reverse
  if rooted then separator :: body else if body = [] then [dot] else body

/-- Go's `filepath.Join` of two elements on Unix. -/
def filepathJoin (a b : GoString) : GoString :=
  if a ≠ [] then filepathClean (a ++ [separator] ++ b)
  else if b ≠ [] then filepathClean b
  else []

/-- Go's `filepath.Abs` on Unix; `none` when the working directory cannot
be determined. -/
def filepathAbs (env : PathEnv) (path : GoString) : Option GoString :=
  if path.head? = some separator then some (filepathClean path)
  else match env.cwd with
    | none => none
    | some wd => some (filepathJoin wd path)

/-- Does the first string start with the second? -/
def startsWith : GoString → GoString → Bool
  | _, [] => true
  | [], _ :: _ => false
  | c :: s, d :: p => c = d && startsWith s p

/-- Go's `strings.HasPrefix`. -/
def stringsHasPrefix (s pre : GoString) : Bool := startsWith s pre

/-- Go's `strings.CutPrefix`. -/
def stringsCutPrefix (s pre : GoString) : GoString × Bool :=
  if stringsHasPrefix s pre then (s.drop pre.length, true) else (s, false)

/-- The errors `expandPath` returns. -/
inductive PathError
  | abs
  | notRelative
  | stat
deriving DecidableEq, Repr

/-- The function `expandPath`. -/
def expandPath (env : PathEnv) (root path : GoString) : Except PathError GoString :=
  match filepathAbs env path with
  | none => .error .abs
  | some resolved =>
    if !stringsHasPrefix resolved root then .error .notRelative
    else if !env.stat resolved then .error .stat
    else .ok (stringsCutPrefix resolved root).1

/-- How `fileHandler` answers: status 500, status 403, or it goes on to
open `fullpath` and list it under the title `path` (lines 54-92). -/
inductive HandlerOutcome
  | internalServerError
  | forbidden
  | listing (fullpath path : GoString)
deriving DecidableEq, Repr

/-- The function `fileHandler` up to its confinement check (lines 38-52,
and line 67 for `path`); `urlPath` is `r.URL.Path`. -/
def fileHandler (env : PathEnv) (urlPath : GoString) : HandlerOutcome :=
  match filepathAbs env [dot] with
  | none => .internalServerError
  | some root =>
    match filepathAbs env (root ++ urlPath) with
    | none => .internalServerError
    | some fullpath =>
      if !stringsHasPrefix fullpath root then .forbidden
      else .listing fullpath (stringsCutPrefix fullpath root).1


/-! ## Auxiliary definitions for the statements -/

/-- The loop of lines 80-92 seen from the catalog: the database after the
names were resolved in turn, and the ids of line 91 in order. -/
def resolveAll (db : Database) : List GoString → Option (Database × List Int)
  | [] => some (db, [])
  | t :: ts =>
    match resolveTag db t with
    | none => none
    | some r =>
      match resolveAll r.1 ts with
      | none => none
      | some r2 => some (r2.1, r.2 :: r2.2)

/-- The names of a list that are not in `seen`, each once, in the order of
their first occurrence. -/
def newNames (seen : List GoString) : List GoString → List GoString
  | [] => []
  | n :: ns => if n ∈ seen then newNames seen ns else n :: newNames (n :: seen) ns

/-- All tag names of a sequence of calls, in order. -/
def callNames : List (GoString × List GoString) → List GoString
  | [] => []
  | c :: cs => c.2 ++ callNames cs

/-- The `FileTags` behind `entry` at line 79 when the pointer found is not
nil: the one found, or the fresh one. -/
def entryOf (db : Database) (fileName : GoString) : FileTags :=
  match mapGet db.Entries fileName with
  | some (some e) => e
  | _ => { Hash := [], Tags := [] }

/-- The three maps of the database are allocated. -/
def Allocated (db : Database) : Prop :=
  db.Entries.isSome = true ∧ db.Tags.isSome = true ∧ db.TagsByName.isSome = true

/-- Two databases with the same tag catalog (they may differ in `Entries`
and `Version`). -/
def sameCatalog (a b : Database) : Prop :=
  a.Tags = b.Tags ∧ a.TagsByName = b.TagsByName ∧ a.LastTag = b.LastTag

/-- The catalog invariant: `Tags` and `TagsByName` are inverse to each
other and the keys of `Tags` lie between 1 and `LastTag`. -/
def CatalogInv (db : Database) : Prop :=
  (∀ (id : Int) (name : GoString),
      mapGet db.Tags id = some name ↔ mapGet db.TagsByName name = some id) ∧
  (∀ (id : Int) (name : GoString), mapGet db.Tags id = some name →
    1 ≤ id ∧ id ≤ db.LastTag) ∧ 0 ≤ db.LastTag

/-- The test of lines 103-108 on an entry that is not nil. -/
def matchesTag (tid : Int) (p : Sigma fun _ : GoString => Option FileTags) : Bool :=
  match p.2 with
  | some current => hasTag tid current.Tags
  | none => false

/-- The id-to-name mapping that a snapshot file holds. -/
def persistedTags (doc : DatabaseJson) : GoMap Int GoString :=
  match doc.t with
  | JsonMember.present m => m
  | _ => ∅

/-- The version triple of a snapshot file as the specification reads it:
an absent member is the zero default `[0,0,0]`. -/
def specVersion (doc : DatabaseJson) : Int × Int × Int :=
  match doc.v with
  | none => (0, 0, 0)
  | some xs => versionOfArray (1, 0, 0) xs

/-! ## Concrete inputs -/

/-- A disk without files on which every write succeeds and can be read
back. -/
def emptyDisk : Disk := ⟨fun _ => FileState.missing, fun _ => true, fun _ => true⟩

/-- A disk on which every file name holds the given decodable content. -/
def diskWith (doc : DatabaseJson) : Disk :=
  ⟨fun _ => FileState.json doc, fun _ => true, fun _ => true⟩

/-- The snapshot file whose JSON object has no member. -/
def emptyJson : DatabaseJson :=
  { v := none, e := JsonMember.absent, t := JsonMember.absent, l := none }

/-- A snapshot file of version `[2,0,0]`, written as the array `[2]`. -/
def versionTwoJson : DatabaseJson :=
  { v := some [some 2], e := JsonMember.absent, t := JsonMember.absent, l := none }

/-- A snapshot file of version `[1,0,0]` with the single tag `1: "red"` and
no `lastTag` member. -/
def oneTagJson : DatabaseJson :=
  { v := some [some 1, some 0, some 0]
    e := JsonMember.absent
    t := JsonMember.present (AList.singleton 1 (utf8 "red"))
    l := none }

/-- A snapshot file of version `[1,0,0]` whose `lastTag` is the largest
`int`. -/
def lastTagMaxJson : DatabaseJson :=
  { v := some [some 1, some 0, some 0]
    e := JsonMember.absent
    t := JsonMember.absent
    l := some 9223372036854775807 }

/-- The mapping `1: "red"`, `2: "blue"`. -/
def twoTagsMap : GoMap Int GoString :=
  AList.insert 2 (utf8 "blue") (AList.singleton 1 (utf8 "red"))

/-- A snapshot file with the tags `1: "red"` and `2: "blue"`. -/
def twoTagsJson : DatabaseJson :=
  { v := some [some 1, some 0, some 0]
    e := JsonMember.absent
    t := JsonMember.present twoTagsMap
    l := some 2 }

/-- A snapshot file whose version is written as the array `[null]`. -/
def nullVersionJson : DatabaseJson :=
  { v := some [none], e := JsonMember.absent, t := JsonMember.absent, l := none }

/-- A snapshot file of version `[1,0,0]` whose member for `Entries` is
`null`. -/
def nullEntriesJson : DatabaseJson :=
  { v := some [some 1, some 0, some 0], e := JsonMember.null, t := JsonMember.absent, l := none }

/-- A snapshot file of version `[1,0,0]` whose member for `Tags` is
`null`. -/
def nullTagsJson : DatabaseJson :=
  { v := some [some 1, some 0, some 0], e := JsonMember.absent, t := JsonMember.null, l := none }

/-- A snapshot file of version `[1,0,0]` with the tag `1: "red"` and the
entry `"/f": null`. -/
def nullEntryJson : DatabaseJson :=
  { v := some [some 1, some 0, some 0]
    e := JsonMember.present [(utf8 "/f", none)]
    t := JsonMember.present (AList.singleton 1 (utf8 "red"))
    l := some 1 }

/-- The working directory `/a/b`, with every path present on disk. -/
def envAB : PathEnv := ⟨some (utf8 "/a/b"), fun _ => true⟩

/-- The first of three calls: `/a` is tagged `red`. -/
def threeCallsHead : List (GoString × List GoString) := [(utf8 "/a", [utf8 "red"])]

/-- The tag names of the second of three calls. -/
def redBlueRed : List GoString := [utf8 "red", utf8 "blue", utf8 "red"]

/-- The last of three calls: `/a` is tagged `green`. -/
def threeCallsTail : List (GoString × List GoString) := [(utf8 "/a", [utf8 "green"])]

/-- The two calls of the scenario of the specification. -/
def scenarioCalls : List (GoString × List GoString) :=
  [(utf8 "/doc.txt", [utf8 "red"]), (utf8 "/doc.txt", [utf8 "blue"])]

/-- Two calls that tag two files. -/
def twoFilesCalls : List (GoString × List GoString) :=
  [(utf8 "/a", [utf8 "red"]), (utf8 "/b", [utf8 "blue", utf8 "red"])]

/-- One call with a tag name that is the single byte `0xFF`. -/
def illFormedCalls : List (GoString × List GoString) :=
  [(utf8 "/f", [[255]])]

/-- The database after `/a` was tagged `red` on the empty database. -/
def redDatabase : Database :=
  { Version := (1, 0, 0)
    Entries := some (AList.singleton (utf8 "/a") (some { Hash := [], Tags := [1] }))
    Tags := some (AList.singleton 1 (utf8 "red"))
    TagsByName := some (AList.singleton (utf8 "red") 1)
    LastTag := 1 }

/-- The database after `twoFilesCalls` on the empty database. -/
def twoFilesDatabase : Database :=
  { Version := (1, 0, 0)
    Entries := some
      ((AList.singleton (utf8 "/a") (some { Hash := [], Tags := [1] }) :
          GoMap GoString (Option FileTags)).insert
        (utf8 "/b") (some { Hash := [], Tags := [2, 1] }))
    Tags := some ((AList.singleton 1 (utf8 "red") : GoMap Int GoString).insert 2 (utf8 "blue"))
    TagsByName := some
      ((AList.singleton (utf8 "red") 1 : GoMap GoString Int).insert (utf8 "blue") 2)
    LastTag := 2 }

/-- The database after `illFormedCalls` on the empty database. -/
def illFormedDatabase : Database :=
  { Version := (1, 0, 0)
    Entries := some (AList.singleton (utf8 "/f") (some { Hash := [], Tags := [1] }))
    Tags := some (AList.singleton 1 [255])
    TagsByName := some (AList.singleton [255] 1)
    LastTag := 1 }

/-- The database after `/doc.txt` was tagged `red` on the empty database. -/
def redOnceDatabase : Database :=
  { Version := (1, 0, 0)
    Entries := some (AList.singleton (utf8 "/doc.txt") (some { Hash := [], Tags := [1] }))
    Tags := some (AList.singleton 1 (utf8 "red"))
    TagsByName := some (AList.singleton (utf8 "red") 1)
    LastTag := 1 }

/-- The database after `/doc.txt` was tagged `red` a second time. -/
def redTwiceDatabase : Database :=
  { Version := (1, 0, 0)
    Entries := some (AList.singleton (utf8 "/doc.txt") (some { Hash := [], Tags := [1, 1] }))
    Tags := some (AList.singleton 1 (utf8 "red"))
    TagsByName := some (AList.singleton (utf8 "red") 1)
    LastTag := 1 }

/-! ## Lemmas on the tag catalog -/

theorem wrapInt_of_fits (x : Int) (h1 : -9223372036854775808 ≤ x) (h2 : x ≤ maxInt) :
    wrapInt x = x := by
  unfold wrapInt; unfold maxInt at h2; omega

theorem mem_mapKeys {V : Type} (m : Option (GoMap GoString V)) (n : GoString) :
    n ∈ mapKeys m ↔ ∃ v, mapGet m n = some v := by
  cases m with
  | none => simp [mapKeys, mapGet]
  | some a =>
    show n ∈ a.keys ↔ ∃ v, a.lookup n = some v
    rw [← AList.mem_keys, ← AList.lookup_isSome, Option.isSome_iff_exists]

theorem resolveTag_known (db : Database) (tag : GoString) (tid : Int)
    (h : mapGet db.TagsByName tag = some tid) : resolveTag db tag = some (db, tid) := by
  unfold resolveTag; rw [h]

theorem resolveTag_fresh (db : Database) (tag : GoString)
    (byName : GoMap GoString Int) (tags : GoMap Int GoString)
    (h1 : db.TagsByName = some byName) (h2 : db.Tags = some tags)
    (h : byName.lookup tag = none) :
    resolveTag db tag =
      some ({ db with
          LastTag := wrapInt (db.LastTag + 1)
          TagsByName := some (byName.insert tag (wrapInt (db.LastTag + 1)))
          Tags := some (tags.insert (wrapInt (db.LastTag + 1)) tag) },
        wrapInt (db.LastTag + 1)) := by
  have hget : mapGet db.TagsByName tag = none := by rw [h1]; exact h
  unfold resolveTag; rw [hget]; simp only [h1, h2]

/-- The two ways in which `resolveTag` returns. -/
theorem resolveTag_some (db : Database) (tag : GoString) (r : Database × Int)
    (h : resolveTag db tag = some r) :
    (mapGet db.TagsByName tag = some r.2 ∧ r.1 = db) ∨
    (mapGet db.TagsByName tag = none ∧
      ∃ (byName : GoMap GoString Int) (tags : GoMap Int GoString),
        db.TagsByName = some byName ∧ db.Tags = some tags ∧
        r = ({ db with
            LastTag := wrapInt (db.LastTag + 1)
            TagsByName := some (byName.insert tag (wrapInt (db.LastTag + 1)))
            Tags := some (tags.insert (wrapInt (db.LastTag + 1)) tag) },
          wrapInt (db.LastTag + 1))) := by
  cases hget : mapGet db.TagsByName tag with
  | some tid =>
    rw [resolveTag_known db tag tid hget] at h
    cases h; exact Or.inl ⟨rfl, rfl⟩
  | none =>
    right
    refine ⟨rfl, ?_⟩
    cases h1 : db.TagsByName with
    | none => unfold resolveTag at h; rw [hget] at h; simp [h1] at h
    | some byName =>
      cases h2 : db.Tags with
      | none => unfold resolveTag at h; rw [hget] at h; simp [h1, h2] at h
      | some tags =>
        have hl : byName.lookup tag = none := by rw [h1] at hget; exact hget
        rw [resolveTag_fresh db tag byName tags h1 h2 hl] at h
        exact ⟨byName, tags, rfl, rfl, (Option.some.inj h).symm⟩

theorem resolveTag_total (db : Database) (tag : GoString)
    (h1 : db.Tags.isSome = true) (h2 : db.TagsByName.isSome = true) :
    ∃ r, resolveTag db tag = some r ∧ r.1.Tags.isSome = true ∧ r.1.TagsByName.isSome = true := by
  cases hget : mapGet db.TagsByName tag with
  | some tid => exact ⟨_, resolveTag_known db tag tid hget, h1, h2⟩
  | none =>
    obtain ⟨tags, ht⟩ := Option.isSome_iff_exists.1 h1
    obtain ⟨byName, hb⟩ := Option.isSome_iff_exists.1 h2
    have hl : byName.lookup tag = none := by rw [hb] at hget; exact hget
    exact ⟨_, resolveTag_fresh db tag byName tags hb ht hl, rfl, rfl⟩

theorem resolveTag_entries (db : Database) (tag : GoString) (r : Database × Int)
    (h : resolveTag db tag = some r) :
    r.1.Entries = db.Entries ∧ r.1.Version = db.Version := by
  rcases resolveTag_some db tag r h with ⟨_, h1⟩ | ⟨_, byName, tags, _, _, h1⟩
  · rw [h1]; exact ⟨rfl, rfl⟩
  · rw [h1]; exact ⟨rfl, rfl⟩

theorem resolveTag_lookup_self (db : Database) (tag : GoString) (r : Database × Int)
    (h : resolveTag db tag = some r) : mapGet r.1.TagsByName tag = some r.2 := by
  rcases resolveTag_some db tag r h with ⟨h0, h1⟩ | ⟨_, byName, tags, _, _, h1⟩
  · rw [h1]; exact h0
  · rw [h1]; exact AList.lookup_insert _

theorem resolveTag_keeps (db : Database) (tag n : GoString) (id : Int) (r : Database × Int)
    (h : resolveTag db tag = some r) (hn : mapGet db.TagsByName n = some id) :
    mapGet r.1.TagsByName n = some id := by
  rcases resolveTag_some db tag r h with ⟨_, h1⟩ | ⟨h0, byName, tags, hb, _, h1⟩
  · rw [h1]; exact hn
  · rw [h1]
    have hne : n ≠ tag := by
      intro e; rw [e, h0] at hn; cases hn
    show (byName.insert tag _).lookup n = some id
    rw [AList.lookup_insert_ne hne]
    rw [hb] at hn; exact hn

theorem resolveAll_cons (db : Database) (t : GoString) (ts : List GoString)
    (r : Database × List Int) (h : resolveAll db (t :: ts) = some r) :
    ∃ (r1 : Database × Int) (r2 : Database × List Int),
      resolveTag db t = some r1 ∧ resolveAll r1.1 ts = some r2 ∧ r = (r2.1, r1.2 :: r2.2) := by
  unfold resolveAll at h
  cases h1 : resolveTag db t with
  | none => rw [h1] at h; cases h
  | some r1 =>
    rw [h1] at h
    simp only [] at h
    cases h2 : resolveAll r1.1 ts with
    | none => rw [h2] at h; cases h
    | some r2 =>
      rw [h2] at h
      exact ⟨r1, r2, rfl, h2, (Option.some.inj h).symm⟩

theorem resolveAll_cons_eq (db : Database) (t : GoString) (ts : List GoString)
    (r1 : Database × Int) (r2 : Database × List Int)
    (h1 : resolveTag db t = some r1) (h2 : resolveAll r1.1 ts = some r2) :
    resolveAll db (t :: ts) = some (r2.1, r1.2 :: r2.2) := by
  show (match resolveTag db t with
    | none => none
    | some r =>
      match resolveAll r.1 ts with
      | none => none
      | some r2 => some (r2.1, r.2 :: r2.2)) = _
  rw [h1]; simp only []; rw [h2]

theorem resolveAll_total (names : List GoString) (db : Database)
    (h1 : db.Tags.isSome = true) (h2 : db.TagsByName.isSome = true) :
    ∃ r, resolveAll db names = some r ∧ r.1.Tags.isSome = true ∧
      r.1.TagsByName.isSome = true := by
  induction names generalizing db with
  | nil => exact ⟨_, rfl, h1, h2⟩
  | cons t ts ih =>
    obtain ⟨r1, hr1, ha, hb⟩ := resolveTag_total db t h1 h2
    obtain ⟨r2, hr2, hc, hd⟩ := ih r1.1 ha hb
    exact ⟨_, resolveAll_cons_eq db t ts r1 r2 hr1 hr2, hc, hd⟩

theorem resolveAll_entries (names : List GoString) (db : Database) (r : Database × List Int)
    (h : resolveAll db names = some r) :
    r.1.Entries = db.Entries ∧ r.1.Version = db.Version := by
  induction names generalizing db r with
  | nil => cases h; exact ⟨rfl, rfl⟩
  | cons t ts ih =>
    obtain ⟨r1, r2, h1, h2, rfl⟩ := resolveAll_cons db t ts r h
    have ha := ih r1.1 r2 h2
    have hb := resolveTag_entries db t r1 h1
    exact ⟨ha.1.trans hb.1, ha.2.trans hb.2⟩

theorem resolveAll_keeps (names : List GoString) (db : Database) (r : Database × List Int)
    (n : GoString) (id : Int) (h : resolveAll db names = some r)
    (hn : mapGet db.TagsByName n = some id) : mapGet r.1.TagsByName n = some id := by
  induction names generalizing db r with
  | nil => cases h; exact hn
  | cons t ts ih =>
    obtain ⟨r1, r2, h1, h2, rfl⟩ := resolveAll_cons db t ts r h
    exact ih r1.1 r2 h2 (resolveTag_keeps db t n id r1 h1 hn)

theorem resolveAll_ids (names : List GoString) (db : Database) (r : Database × List Int)
    (h : resolveAll db names = some r) :
    r.2.map some = names.map (mapGet r.1.TagsByName) := by
  induction names generalizing db r with
  | nil => cases h; rfl
  | cons t ts ih =>
    obtain ⟨r1, r2, h1, h2, rfl⟩ := resolveAll_cons db t ts r h
    show some r1.2 :: r2.2.map some = mapGet r2.1.TagsByName t :: ts.map (mapGet r2.1.TagsByName)
    rw [ih r1.1 r2 h2,
      resolveAll_keeps ts r1.1 r2 t r1.2 h2 (resolveTag_lookup_self db t r1 h1)]

theorem resolveAll_length (names : List GoString) (db : Database) (r : Database × List Int)
    (h : resolveAll db names = some r) : r.2.length = names.length := by
  induction names generalizing db r with
  | nil => cases h; rfl
  | cons t ts ih =>
    obtain ⟨r1, r2, h1, h2, rfl⟩ := resolveAll_cons db t ts r h
    show (r1.2 :: r2.2).length = _
    rw [List.length_cons, ih r1.1 r2 h2, List.length_cons]

theorem resolveAll_lookup_mem (names : List GoString) (db : Database)
    (r : Database × List Int) (t : GoString) (h : resolveAll db names = some r)
    (ht : t ∈ names) : ∃ id : Int, mapGet r.1.TagsByName t = some id := by
  induction names generalizing db r with
  | nil => cases ht
  | cons n ns ih =>
    obtain ⟨r1, r2, h1, h2, rfl⟩ := resolveAll_cons db n ns r h
    rcases List.mem_cons.1 ht with e | e
    · subst e
      exact ⟨_, resolveAll_keeps ns r1.1 r2 t r1.2 h2 (resolveTag_lookup_self db t r1 h1)⟩
    · exact ih r1.1 r2 h2 e

theorem resolveAll_append (a b : List GoString) (db : Database) (r : Database × List Int)
    (h : resolveAll db (a ++ b) = some r) :
    ∃ (ra rb : Database × List Int), resolveAll db a = some ra ∧
      resolveAll ra.1 b = some rb ∧ r = (rb.1, ra.2 ++ rb.2) := by
  induction a generalizing db r with
  | nil => exact ⟨(db, []), r, rfl, h, rfl⟩
  | cons t ts ih =>
    obtain ⟨r1, r2, h1, h2, rfl⟩ := resolveAll_cons db t (ts ++ b) r h
    obtain ⟨ra, rb, ha, hb, hr⟩ := ih r1.1 r2 h2
    refine ⟨(ra.1, r1.2 :: ra.2), rb, resolveAll_cons_eq db t ts r1 ra h1 ha, hb, ?_⟩
    rw [hr]; rfl

theorem resolveAll_append_eq (a b : List GoString) (db : Database)
    (ra rb : Database × List Int) (ha : resolveAll db a = some ra)
    (hb : resolveAll ra.1 b = some rb) :
    resolveAll db (a ++ b) = some (rb.1, ra.2 ++ rb.2) := by
  induction a generalizing db ra with
  | nil => cases ha; exact hb
  | cons t ts ih =>
    obtain ⟨r1, r2, h1, h2, rfl⟩ := resolveAll_cons db t ts ra ha
    exact resolveAll_cons_eq db t (ts ++ b) r1 _ h1 (ih r1.1 r2 h2 hb)

theorem resolveTag_congr (a b : Database) (t : GoString) (ra : Database × Int)
    (h : sameCatalog a b) (ha : resolveTag a t = some ra) :
    ∃ rb : Database × Int, resolveTag b t = some rb ∧ sameCatalog ra.1 rb.1 ∧ ra.2 = rb.2 := by
  obtain ⟨h1, h2, h3⟩ := h
  rcases resolveTag_some a t ra ha with ⟨hk, he⟩ | ⟨_, byName, tags, hb, ht, he⟩
  · refine ⟨(b, ra.2), resolveTag_known b t ra.2 (by rw [← h2]; exact hk), ?_, rfl⟩
    rw [he]; exact ⟨h1, h2, h3⟩
  · have hl : byName.lookup t = none := by
      have := (resolveTag_some a t ra ha)
      rcases this with ⟨hk, _⟩ | ⟨hn, _⟩
      · rw [he] at hk
        have hn : mapGet a.TagsByName t = none := by assumption
        rw [hb] at hn; exact hn
      · rw [hb] at hn; exact hn
    refine ⟨_, resolveTag_fresh b t byName tags (by rw [← h2]; exact hb)
      (by rw [← h1]; exact ht) hl, ?_, ?_⟩
    · rw [he, h3]; exact ⟨rfl, rfl, rfl⟩
    · rw [he, h3]

theorem resolveAll_congr (names : List GoString) (a b : Database) (ra : Database × List Int)
    (h : sameCatalog a b) (ha : resolveAll a names = some ra) :
    ∃ rb : Database × List Int, resolveAll b names = some rb ∧ sameCatalog ra.1 rb.1 ∧
      ra.2 = rb.2 := by
  induction names generalizing a b ra with
  | nil => cases ha; exact ⟨(b, []), rfl, h, rfl⟩
  | cons t ts ih =>
    obtain ⟨r1, r2, h1, h2, rfl⟩ := resolveAll_cons a t ts ra ha
    obtain ⟨s1, hs1, hc1, he1⟩ := resolveTag_congr a b t r1 h h1
    obtain ⟨s2, hs2, hc2, he2⟩ := ih r1.1 s1.1 r2 hc1 h2
    refine ⟨_, resolveAll_cons_eq b t ts s1 s2 hs1 hs2, hc2, ?_⟩
    show r1.2 :: r2.2 = s1.2 :: s2.2
    rw [he1, he2]

theorem addFileTagsLoop_some (tags : List GoString) (db : Database) (e : FileTags) :
    addFileTagsLoop db (some e) tags =
      (resolveAll db tags).map fun r => (r.1, some { e with Tags := e.Tags ++ r.2 }) := by
  induction tags generalizing db e with
  | nil => simp [addFileTagsLoop, resolveAll]
  | cons t ts ih =>
    unfold addFileTagsLoop resolveAll
    cases h1 : resolveTag db t with
    | none => rfl
    | some r1 =>
      simp only []
      rw [ih]
      cases h2 : resolveAll r1.1 ts with
      | none => rfl
      | some r2 => simp [List.append_assoc]

theorem addFileTagsLoop_nil (db : Database) (t : GoString) (ts : List GoString) :
    addFileTagsLoop db none (t :: ts) = none := by
  unfold addFileTagsLoop
  cases resolveTag db t <;> rfl

theorem entryOf_none (db : Database) (path : GoString) (h : mapGet db.Entries path = none) :
    entryOf db path = { Hash := [], Tags := [] } := by
  unfold entryOf; rw [h]

theorem entryOf_some (db : Database) (path : GoString) (e : FileTags)
    (h : mapGet db.Entries path = some (some e)) : entryOf db path = e := by
  unfold entryOf; rw [h]

/-- What `addFileTags` returns when the pointer under `fileName` is not
nil and the names can be resolved. -/
theorem addFileTags_eq (db : Database) (fileName : GoString) (tags : List GoString)
    (m : GoMap GoString (Option FileTags)) (r : Database × List Int)
    (hm : db.Entries = some m) (hptr : mapGet db.Entries fileName ≠ some none)
    (hr : resolveAll db tags = some r) :
    addFileTags db fileName tags =
      some { r.1 with
        Entries := some (m.insert fileName
          (some { Hash := (entryOf db fileName).Hash,
                  Tags := (entryOf db fileName).Tags ++ r.2 })) } := by
  unfold addFileTags
  cases hget : mapGet db.Entries fileName with
  | none =>
    simp only [hm]
    rw [addFileTagsLoop_some, hr, entryOf_none db fileName hget]
    rfl
  | some entry =>
    cases entry with
    | none => exact absurd hget hptr
    | some e =>
      simp only []
      rw [addFileTagsLoop_some, hr, entryOf_some db fileName e hget, hm]
      rfl

/-- The ways in which `addFileTags` returns. -/
theorem addFileTags_some (db : Database) (fileName : GoString) (tags : List GoString)
    (d : Database) (h : addFileTags db fileName tags = some d) :
    ∃ m : GoMap GoString (Option FileTags), db.Entries = some m ∧
      ((tags = [] ∧ mapGet db.Entries fileName = some none ∧
          d = { db with Entries := some (m.insert fileName none) }) ∨
       (mapGet db.Entries fileName ≠ some none ∧
          ∃ r : Database × List Int, resolveAll db tags = some r ∧
            d = { r.1 with
              Entries := some (m.insert fileName
                (some { Hash := (entryOf db fileName).Hash,
                        Tags := (entryOf db fileName).Tags ++ r.2 })) })) := by
  rcases Option.eq_none_or_eq_some db.Entries with hm | ⟨m, hm⟩
  · have hget : mapGet db.Entries fileName = none := by rw [hm]; rfl
    unfold addFileTags at h
    rw [hget] at h
    simp [hm] at h
  · refine ⟨m, hm, ?_⟩
    by_cases hptr : mapGet db.Entries fileName = some none
    · left
      cases tags with
      | nil =>
        refine ⟨rfl, hptr, ?_⟩
        unfold addFileTags at h
        rw [hptr] at h
        simp only [addFileTagsLoop, hm, Option.map_some'] at h
        exact (Option.some.inj h).symm
      | cons t ts =>
        unfold addFileTags at h
        rw [hptr] at h
        simp only [addFileTagsLoop_nil] at h
        cases h
    · right
      refine ⟨hptr, ?_⟩
      cases hr : resolveAll db tags with
      | none =>
        exfalso
        unfold addFileTags at h
        cases hget : mapGet db.Entries fileName with
        | none =>
          rw [hget] at h
          simp only [hm, addFileTagsLoop_some, hr, Option.map_none'] at h
          cases h
        | some entry =>
          cases entry with
          | none => exact hptr hget
          | some e =>
            rw [hget] at h
            simp only [addFileTagsLoop_some, hr, Option.map_none'] at h
            cases h
      | some r =>
        refine ⟨r, rfl, ?_⟩
        rw [addFileTags_eq db fileName tags m r hm hptr hr] at h
        exact (Option.some.inj h).symm

theorem addFileTags_catalog (db : Database) (fileName : GoString) (tags : List GoString)
    (d : Database) (h : addFileTags db fileName tags = some d) :
    ∃ r : Database × List Int, resolveAll db tags = some r ∧ sameCatalog d r.1 := by
  obtain ⟨m, _, h1 | h1⟩ := addFileTags_some db fileName tags d h
  · obtain ⟨ht, _, hd⟩ := h1
    subst ht
    exact ⟨(db, []), rfl, by rw [hd]; exact ⟨rfl, rfl, rfl⟩⟩
  · obtain ⟨_, r, hr, hd⟩ := h1
    exact ⟨r, hr, by rw [hd]; exact ⟨rfl, rfl, rfl⟩⟩

theorem addFileTagsCalls_cons (db : Database) (c : GoString × List GoString)
    (cs : List (GoString × List GoString)) (final : Database)
    (h : addFileTagsCalls db (c :: cs) = some final) :
    ∃ d : Database, addFileTags db c.1 c.2 = some d ∧ addFileTagsCalls d cs = some final := by
  unfold addFileTagsCalls at h
  cases hd : addFileTags db c.1 c.2 with
  | none => rw [hd] at h; cases h
  | some d => rw [hd] at h; exact ⟨d, rfl, h⟩

theorem addFileTagsCalls_cons_eq (db d : Database) (c : GoString × List GoString)
    (cs : List (GoString × List GoString)) (h : addFileTags db c.1 c.2 = some d) :
    addFileTagsCalls db (c :: cs) = addFileTagsCalls d cs := by
  show (match addFileTags db c.1 c.2 with
    | none => none
    | some d => addFileTagsCalls d cs) = _
  rw [h]

theorem addFileTagsCalls_catalog (calls : List (GoString × List GoString)) (db final : Database)
    (h : addFileTagsCalls db calls = some final) :
    ∃ r : Database × List Int, resolveAll db (callNames calls) = some r ∧
      sameCatalog final r.1 := by
  induction calls generalizing db with
  | nil => cases h; exact ⟨(final, []), rfl, rfl, rfl, rfl⟩
  | cons c cs ih =>
    obtain ⟨d, hd, hrest⟩ := addFileTagsCalls_cons db c cs final h
    obtain ⟨r1, hr1, hc1⟩ := addFileTags_catalog db c.1 c.2 d hd
    obtain ⟨r2, hr2, hc2⟩ := ih d hrest
    obtain ⟨r3, hr3, hc3, _⟩ := resolveAll_congr (callNames cs) d r1.1 r2 hc1 hr2
    refine ⟨_, resolveAll_append_eq c.2 (callNames cs) db r1 r3 hr1 hr3, ?_⟩
    exact ⟨hc2.1.trans hc3.1, hc2.2.1.trans hc3.2.1, hc2.2.2.trans hc3.2.2⟩

theorem addFileTagsCalls_append (a b : List (GoString × List GoString)) (db : Database) :
    addFileTagsCalls db (a ++ b) = (addFileTagsCalls db a).bind fun d => addFileTagsCalls d b := by
  induction a generalizing db with
  | nil => rfl
  | cons c cs ih =>
    cases hd : addFileTags db c.1 c.2 with
    | none =>
      show (match addFileTags db c.1 c.2 with
        | none => none
        | some d => addFileTagsCalls d (cs ++ b)) = _
      rw [hd]
      show none = (match addFileTags db c.1 c.2 with
        | none => none
        | some d => addFileTagsCalls d cs).bind _
      rw [hd]; rfl
    | some d =>
      rw [List.cons_append, addFileTagsCalls_cons_eq db d c (cs ++ b) hd,
        addFileTagsCalls_cons_eq db d c cs hd]
      exact ih d

theorem addFileTagsCalls_keeps (calls : List (GoString × List GoString)) (db final : Database)
    (n : GoString) (id : Int) (h : addFileTagsCalls db calls = some final)
    (hn : mapGet db.TagsByName n = some id) : mapGet final.TagsByName n = some id := by
  obtain ⟨r, hr, hc⟩ := addFileTagsCalls_catalog calls db final h
  rw [hc.2.1]
  exact resolveAll_keeps _ db r n id hr hn

theorem addFileTags_total (db : Database) (fileName : GoString) (tags : List GoString)
    (halloc : Allocated db) (hptr : mapGet db.Entries fileName ≠ some none) :
    ∃ d : Database, addFileTags db fileName tags = some d ∧ Allocated d ∧
      ∀ g : GoString, mapGet d.Entries g = some none → mapGet db.Entries g = some none := by
  obtain ⟨he, ht, hb⟩ := halloc
  obtain ⟨m, hm⟩ := Option.isSome_iff_exists.1 he
  obtain ⟨r, hr, h1, h2⟩ := resolveAll_total tags db ht hb
  refine ⟨_, addFileTags_eq db fileName tags m r hm hptr hr, ⟨rfl, h1, h2⟩, ?_⟩
  intro g hg
  have hg' : (m.insert fileName
      (some ⟨(entryOf db fileName).Hash, (entryOf db fileName).Tags ++ r.2⟩)).lookup g =
        some none := hg
  by_cases hgf : g = fileName
  · subst hgf; rw [AList.lookup_insert] at hg'; cases hg'
  · rw [AList.lookup_insert_ne hgf] at hg'
    rw [hm]; exact hg'

theorem addFileTagsCalls_total (calls : List (GoString × List GoString)) (db : Database)
    (halloc : Allocated db)
    (hptr : ∀ c ∈ calls, mapGet db.Entries c.1 ≠ some none) :
    ∃ final : Database, addFileTagsCalls db calls = some final ∧ Allocated final := by
  induction calls generalizing db with
  | nil => exact ⟨db, rfl, halloc⟩
  | cons c cs ih =>
    obtain ⟨d, hd, hda, hdn⟩ :=
      addFileTags_total db c.1 c.2 halloc (hptr c (List.mem_cons_self _ _))
    obtain ⟨final, hf, hfa⟩ := ih d hda
      (fun c' hc' hnil => hptr c' (List.mem_cons_of_mem _ hc') (hdn _ hnil))
    exact ⟨final, by rw [addFileTagsCalls_cons_eq db d c cs hd]; exact hf, hfa⟩

theorem newNames_congr (names : List GoString) (s s' : List GoString)
    (h : ∀ x, x ∈ s ↔ x ∈ s') : newNames s names = newNames s' names := by
  induction names generalizing s s' with
  | nil => rfl
  | cons n ns ih =>
    by_cases hn : n ∈ s
    · have hn' : n ∈ s' := (h n).1 hn
      simp only [newNames, hn, hn', if_true]
      exact ih s s' h
    · have hn' : n ∉ s' := fun c => hn ((h n).2 c)
      simp only [newNames, hn, hn', if_false]
      rw [ih (n :: s) (n :: s')]
      intro x; simp only [List.mem_cons, h x]

theorem mapGet_none_of_not_mem {V : Type} (m : Option (GoMap GoString V)) (n : GoString)
    (h : n ∉ mapKeys m) : mapGet m n = none := by
  cases hg : mapGet m n with
  | none => rfl
  | some v => exact absurd ((mem_mapKeys m n).2 ⟨v, hg⟩) h

/-- The step of `resolveTag` on a name that is not yet known. -/
theorem resolveTag_fresh_facts (db : Database) (t : GoString) (r1 : Database × Int)
    (h1 : resolveTag db t = some r1) (ht : t ∉ mapKeys db.TagsByName) :
    (∀ x, x ∈ mapKeys r1.1.TagsByName ↔ x ∈ t :: mapKeys db.TagsByName) ∧
    r1.1.LastTag = wrapInt (db.LastTag + 1) ∧ r1.2 = wrapInt (db.LastTag + 1) ∧
    mapGet db.TagsByName t = none := by
  have hnone := mapGet_none_of_not_mem db.TagsByName t ht
  rcases resolveTag_some db t r1 h1 with ⟨hk, _⟩ | ⟨_, byName, tags, hb, _, he⟩
  · rw [hnone] at hk; cases hk
  · refine ⟨?_, by rw [he], by rw [he], hnone⟩
    intro x
    rw [he, hb]
    show x ∈ (byName.insert t _).keys ↔ x ∈ t :: byName.keys
    rw [← AList.mem_keys, AList.mem_insert, List.mem_cons, AList.mem_keys]

theorem newNames_known (db : Database) (t : GoString) (ts : List GoString)
    (ht : t ∈ mapKeys db.TagsByName) :
    newNames (mapKeys db.TagsByName) (t :: ts) = newNames (mapKeys db.TagsByName) ts := by
  simp only [newNames, ht, if_true]

theorem newNames_fresh (db : Database) (t : GoString) (ts : List GoString)
    (r1 : Database × Int) (h1 : resolveTag db t = some r1)
    (ht : t ∉ mapKeys db.TagsByName) :
    newNames (mapKeys db.TagsByName) (t :: ts) =
      t :: newNames (mapKeys r1.1.TagsByName) ts := by
  simp only [newNames, ht, if_false]
  rw [newNames_congr ts _ _ (resolveTag_fresh_facts db t r1 h1 ht).1]

theorem resolveAll_known_step (db : Database) (t : GoString) (ts : List GoString)
    (r : Database × List Int) (h : resolveAll db (t :: ts) = some r)
    (ht : t ∈ mapKeys db.TagsByName) :
    ∃ r2 : Database × List Int, resolveAll db ts = some r2 ∧ r.1 = r2.1 := by
  obtain ⟨r1, r2, h1, h2, rfl⟩ := resolveAll_cons db t ts r h
  obtain ⟨tid, htid⟩ := (mem_mapKeys db.TagsByName t).1 ht
  rw [resolveTag_known db t tid htid] at h1
  cases h1
  exact ⟨r2, h2, rfl⟩

theorem resolveAll_fresh_ids (names : List GoString) (db : Database) (r : Database × List Int)
    (h : resolveAll db names = some r)
    (hlo : -9223372036854775808 ≤ db.LastTag)
    (hhi : db.LastTag + (newNames (mapKeys db.TagsByName) names).length ≤ maxInt) :
    r.1.LastTag = db.LastTag + (newNames (mapKeys db.TagsByName) names).length ∧
    ∀ (i : Nat) (n : GoString), (newNames (mapKeys db.TagsByName) names)[i]? = some n →
      mapGet r.1.TagsByName n = some (db.LastTag + 1 + i) := by
  induction names generalizing db r with
  | nil =>
    cases h
    refine ⟨by simp [newNames], ?_⟩
    intro i n hi; simp [newNames] at hi
  | cons t ts ih =>
    by_cases ht : t ∈ mapKeys db.TagsByName
    · obtain ⟨r2, h2, he⟩ := resolveAll_known_step db t ts r h ht
      rw [newNames_known db t ts ht] at hhi ⊢
      rw [he]
      exact ih db r2 h2 hlo hhi
    · obtain ⟨r1, r2, h1, h2, rfl⟩ := resolveAll_cons db t ts r h
      obtain ⟨_, hlast, hid, _⟩ := resolveTag_fresh_facts db t r1 h1 ht
      rw [newNames_fresh db t ts r1 h1 ht] at hhi ⊢
      simp only [List.length_cons, Nat.cast_add, Nat.cast_one] at hhi ⊢
      have hlen : (0 : Int) ≤ ((newNames (mapKeys r1.1.TagsByName) ts).length : Int) :=
        Int.natCast_nonneg _
      have hw : wrapInt (db.LastTag + 1) = db.LastTag + 1 :=
        wrapInt_of_fits _ (by omega) (by omega)
      rw [hw] at hlast hid
      have hself : mapGet r1.1.TagsByName t = some (db.LastTag + 1) := by
        rw [resolveTag_lookup_self db t r1 h1, hid]
      have hi := ih r1.1 r2 h2 (by rw [hlast]; omega) (by rw [hlast]; omega)
      rw [hlast] at hi
      refine ⟨by show r2.1.LastTag = _; rw [hi.1]; omega, ?_⟩
      intro i n hget
      show mapGet r2.1.TagsByName n = _
      cases i with
      | zero =>
        simp only [List.getElem?_cons_zero, Option.some.injEq] at hget
        subst hget
        rw [resolveAll_keeps ts r1.1 r2 _ _ h2 hself]; simp
      | succ j =>
        simp only [List.getElem?_cons_succ] at hget
        rw [hi.2 j n hget]
        congr 1; push_cast; omega

theorem resolveAll_induct (P : Database → Prop)
    (hstep : ∀ (db : Database) (t : GoString) (r1 : Database × Int), P db →
      mapGet db.TagsByName t = none → resolveTag db t = some r1 →
      -9223372036854775808 ≤ db.LastTag → db.LastTag + 1 ≤ maxInt → P r1.1)
    (names : List GoString) (db : Database) (r : Database × List Int)
    (h : resolveAll db names = some r) (hP : P db)
    (hlo : -9223372036854775808 ≤ db.LastTag)
    (hhi : db.LastTag + (newNames (mapKeys db.TagsByName) names).length ≤ maxInt) :
    P r.1 := by
  induction names generalizing db r with
  | nil => cases h; exact hP
  | cons t ts ih =>
    by_cases ht : t ∈ mapKeys db.TagsByName
    · obtain ⟨r2, h2, he⟩ := resolveAll_known_step db t ts r h ht
      rw [newNames_known db t ts ht] at hhi
      rw [he]
      exact ih db r2 h2 hP hlo hhi
    · obtain ⟨r1, r2, h1, h2, rfl⟩ := resolveAll_cons db t ts r h
      obtain ⟨_, hlast, _, hnone⟩ := resolveTag_fresh_facts db t r1 h1 ht
      rw [newNames_fresh db t ts r1 h1 ht] at hhi
      simp only [List.length_cons, Nat.cast_add, Nat.cast_one] at hhi
      have hlen : (0 : Int) ≤ ((newNames (mapKeys r1.1.TagsByName) ts).length : Int) :=
        Int.natCast_nonneg _
      rw [wrapInt_of_fits _ (by omega) (by omega)] at hlast
      show P r2.1
      exact ih r1.1 r2 h2 (hstep db t r1 hP hnone h1 hlo (by omega))
        (by rw [hlast]; omega) (by rw [hlast]; omega)

theorem catalogInv_empty : CatalogInv emptyDatabase := by
  refine ⟨?_, ?_, by decide⟩
  · intro id name
    show (∅ : GoMap Int GoString).lookup id = some name ↔
      (∅ : GoMap GoString Int).lookup name = some id
    simp
  · intro id name h
    have h' : (∅ : GoMap Int GoString).lookup id = some name := h
    simp at h'

theorem catalogInv_step (db : Database) (t : GoString) (r1 : Database × Int)
    (hinv : CatalogInv db) (hnone : mapGet db.TagsByName t = none)
    (h1 : resolveTag db t = some r1) (hhi : db.LastTag + 1 ≤ maxInt) :
    CatalogInv r1.1 := by
  obtain ⟨hbij, hrange, hpos⟩ := hinv
  have hw : wrapInt (db.LastTag + 1) = db.LastTag + 1 := wrapInt_of_fits _ (by omega) hhi
  rcases resolveTag_some db t r1 h1 with ⟨hk, _⟩ | ⟨_, byName, tags, hb, ht, he⟩
  · rw [hnone] at hk; cases hk
  rw [he, hw]
  rw [hb, ht] at hbij
  rw [ht] at hrange
  rw [hb] at hnone
  have hbij' : ∀ (id : Int) (name : GoString),
      tags.lookup id = some name ↔ byName.lookup name = some id := hbij
  have hrange' : ∀ (id : Int) (name : GoString), tags.lookup id = some name →
      1 ≤ id ∧ id ≤ db.LastTag := hrange
  have hnone' : byName.lookup t = none := hnone
  have hfresh : ∀ name : GoString, tags.lookup (db.LastTag + 1) ≠ some name :=
    fun name c => by have := (hrange' _ name c).2; omega
  refine ⟨?_, ?_, by show 0 ≤ db.LastTag + 1; omega⟩
  · intro id name
    show (tags.insert (db.LastTag + 1) t).lookup id = some name ↔
      (byName.insert t (db.LastTag + 1)).lookup name = some id
    by_cases hid : id = db.LastTag + 1
    · subst hid
      rw [AList.lookup_insert]
      by_cases hname : name = t
      · subst hname; rw [AList.lookup_insert]; simp
      · rw [AList.lookup_insert_ne hname]
        constructor
        · intro h; exact absurd (Option.some.inj h).symm hname
        · intro h; exact absurd ((hbij' _ _).2 h) (hfresh name)
    · rw [AList.lookup_insert_ne hid]
      by_cases hname : name = t
      · subst hname
        rw [AList.lookup_insert]
        constructor
        · intro h; rw [(hbij' _ _).1 h] at hnone'; cases hnone'
        · intro h; exact absurd (Option.some.inj h).symm hid
      · rw [AList.lookup_insert_ne hname]; exact hbij' id name
  · intro id name hmem
    have hmem' : (tags.insert (db.LastTag + 1) t).lookup id = some name := hmem
    show 1 ≤ id ∧ id ≤ db.LastTag + 1
    by_cases hid : id = db.LastTag + 1
    · omega
    · rw [AList.lookup_insert_ne hid] at hmem'
      have := hrange' id name hmem'; omega

theorem keysBound_step (db0 db : Database) (t : GoString) (r1 : Database × Int)
    (hP : (∀ (id : Int) (name : GoString), mapGet db.Tags id = some name →
        id ≤ db.LastTag) ∧
      (∀ (id : Int) (name : GoString), mapGet db0.Tags id = some name →
        mapGet db.Tags id = some name))
    (hnone : mapGet db.TagsByName t = none) (h1 : resolveTag db t = some r1)
    (hlo : -9223372036854775808 ≤ db.LastTag) (hhi : db.LastTag + 1 ≤ maxInt) :
    (∀ (id : Int) (name : GoString), mapGet r1.1.Tags id = some name →
        id ≤ r1.1.LastTag) ∧
      (∀ (id : Int) (name : GoString), mapGet db0.Tags id = some name →
        mapGet r1.1.Tags id = some name) := by
  obtain ⟨hkeys, hpairs⟩ := hP
  have hw : wrapInt (db.LastTag + 1) = db.LastTag + 1 := wrapInt_of_fits _ (by omega) hhi
  rcases resolveTag_some db t r1 h1 with ⟨hk, _⟩ | ⟨_, byName, tags, _, ht, he⟩
  · rw [hnone] at hk; cases hk
  rw [he, hw]
  rw [ht] at hkeys hpairs
  constructor
  · intro id name hmem
    have hmem' : (tags.insert (db.LastTag + 1) t).lookup id = some name := hmem
    show id ≤ db.LastTag + 1
    by_cases hid : id = db.LastTag + 1
    · omega
    · rw [AList.lookup_insert_ne hid] at hmem'
      have := hkeys id name hmem'; omega
  · intro id name h
    have h2 : tags.lookup id = some name := hpairs id name h
    have hne : id ≠ db.LastTag + 1 := fun c => by have := hkeys id name h2; omega
    show (tags.insert (db.LastTag + 1) t).lookup id = some name
    rw [AList.lookup_insert_ne hne]; exact h2

/-! ## The claims on `addFileTags` -/

/-- C8, as amended: `addFileTags` returns when the three maps are allocated
and the pointer stored under `path` is not nil; whenever it returns and
`path` had no entry or a non-nil one, the entry of `path` exists afterwards,
with the previous hash and the previous tag sequence (empty hash and empty
sequence for an absent entry) followed by one id per given name, in the
given order, each the id that `TagsByName` then holds for that name.
Nothing is suppressed: the same name applied twice to an untagged path
leaves two identical ids whenever the two calls return, and they return
when the three maps are allocated. -/
theorem addFileTags_appends_ids (db : Database) (path : GoString) (tags : List GoString) :
    (Allocated db → mapGet db.Entries path ≠ some none →
      ∃ db' : Database, addFileTags db path tags = some db') ∧
    (∀ db' : Database, addFileTags db path tags = some db' →
      ∃ ids : List Int,
        ids.length = tags.length ∧
        ids.map some = tags.map (mapGet db'.TagsByName) ∧
        (mapGet db.Entries path = none →
          mapGet db'.Entries path = some (some { Hash := [], Tags := ids })) ∧
        (∀ e : FileTags, mapGet db.Entries path = some (some e) →
          mapGet db'.Entries path = some (some { Hash := e.Hash, Tags := e.Tags ++ ids }))) ∧
    (∀ (name : GoString) (db1 db2 : Database), mapGet db.Entries path = none →
      addFileTags db path [name] = some db1 → addFileTags db1 path [name] = some db2 →
      ∃ id : Int, mapGet db2.Entries path = some (some { Hash := [], Tags := [id, id] })) ∧
    (∀ name : GoString, Allocated db → mapGet db.Entries path = none →
      ∃ db1 db2 : Database,
        addFileTags db path [name] = some db1 ∧ addFileTags db1 path [name] = some db2) := by
  have general : ∀ (db : Database) (tags : List GoString) (db' : Database),
      addFileTags db path tags = some db' →
      ∃ ids : List Int,
        ids.length = tags.length ∧
        ids.map some = tags.map (mapGet db'.TagsByName) ∧
        (mapGet db.Entries path ≠ some none →
          mapGet db'.Entries path =
            some (some { Hash := (entryOf db path).Hash,
                         Tags := (entryOf db path).Tags ++ ids })) := by
    intro db tags db' h
    obtain ⟨m, hm, h1 | h1⟩ := addFileTags_some db path tags db' h
    · obtain ⟨ht, hnil, _⟩ := h1
      subst ht
      exact ⟨[], rfl, rfl, fun c => absurd hnil c⟩
    · obtain ⟨_, r, hr, hd⟩ := h1
      refine ⟨r.2, resolveAll_length tags db r hr, ?_, ?_⟩
      · rw [hd]; exact resolveAll_ids tags db r hr
      · intro _; rw [hd]; exact AList.lookup_insert _
  refine ⟨?_, ?_, ?_, ?_⟩
  · intro halloc hptr
    obtain ⟨d, hd, _⟩ := addFileTags_total db path tags halloc hptr
    exact ⟨d, hd⟩
  · intro db' h
    obtain ⟨ids, hlen, hids, hentry⟩ := general db tags db' h
    refine ⟨ids, hlen, hids, ?_, ?_⟩
    · intro hnone
      rw [hentry (by rw [hnone]; exact fun c => Option.noConfusion c),
        entryOf_none db path hnone]
      rfl
    · intro e he
      rw [hentry (by rw [he]; exact fun c => Option.noConfusion (Option.some.inj c)),
        entryOf_some db path e he]
  · intro name db1 db2 hnone h1 h2
    obtain ⟨ids1, hlen1, hids1, hentry1⟩ := general db [name] db1 h1
    have hentry1' := hentry1 (by rw [hnone]; exact fun c => Option.noConfusion c)
    rw [entryOf_none db path hnone] at hentry1'
    have hptr1 : mapGet db1.Entries path ≠ some none := by
      rw [hentry1']; exact fun c => Option.noConfusion (Option.some.inj c)
    obtain ⟨ids2, hlen2, hids2, hentry2⟩ := general db1 [name] db2 h2
    have hentry2' := hentry2 hptr1
    rw [entryOf_some db1 path _ hentry1'] at hentry2'
    match ids1, hlen1, ids2, hlen2 with
    | [a], _, [b], _ =>
      refine ⟨a, ?_⟩
      simp only [List.map_cons, List.map_nil, List.cons.injEq, and_true] at hids1 hids2
      obtain ⟨r, hr, hc⟩ := addFileTags_catalog db1 path [name] db2 h2
      have hkeep : mapGet db2.TagsByName name = some a := by
        rw [hc.2.1]; exact resolveAll_keeps [name] db1 r name a hr hids1.symm
      have hb : some b = some a := hids2.trans hkeep
      rw [hentry2', Option.some.inj hb]; rfl
  · intro name halloc hnone
    obtain ⟨db1, h1, halloc1, hnil1⟩ := addFileTags_total db path [name] halloc
      (by rw [hnone]; exact fun c => Option.noConfusion c)
    have hptr1 : mapGet db1.Entries path ≠ some none := by
      intro c
      have := hnil1 path c
      rw [hnone] at this; cases this
    obtain ⟨db2, h2, _, _⟩ := addFileTags_total db1 path [name] halloc1 hptr1
    exact ⟨db1, db2, h1, h2⟩

/-- C8, as amended, at the scenario of the specification: `/doc.txt` tagged
`red` twice holds the id 1 twice. -/
theorem addFileTags_appends_ids_witness :
    (Allocated emptyDatabase ∧ mapGet emptyDatabase.Entries (utf8 "/doc.txt") = none) ∧
    (∃ db1 db2 : Database,
      addFileTags emptyDatabase (utf8 "/doc.txt") [utf8 "red"] = some db1 ∧
      addFileTags db1 (utf8 "/doc.txt") [utf8 "red"] = some db2) ∧
    (∃ id : Int,
      mapGet redTwiceDatabase.Entries (utf8 "/doc.txt") =
        some (some { Hash := [], Tags := [id, id] })) ∧
    mapGet redTwiceDatabase.Entries (utf8 "/doc.txt") =
      some (some { Hash := [], Tags := [1, 1] }) :=
  ⟨⟨⟨rfl, rfl, rfl⟩, rfl⟩,
    (addFileTags_appends_ids emptyDatabase (utf8 "/doc.txt") []).2.2.2 (utf8 "red")
      ⟨rfl, rfl, rfl⟩ rfl,
    (addFileTags_appends_ids emptyDatabase (utf8 "/doc.txt") []).2.2.1 (utf8 "red")
      redOnceDatabase redTwiceDatabase rfl rfl rfl,
    by decide⟩

/-- C8 fails as stated: a snapshot file whose `Entries` member is `null`
loads with a nil map, on which `addFileTags` panics at line 77; a file with
the entry `"/f": null` loads with a nil pointer, on which `addFileTags`
panics at line 91, and which it leaves nil when no tag is given. -/
theorem addFileTags_nil_counterexample :
    (∃ db : Database,
      loadDatabase id (diskWith nullEntriesJson) (utf8 ".tagger") = Except.ok db ∧
      db.Entries = none ∧
      addFileTags db (utf8 "/f") [utf8 "red"] = none) ∧
    (∃ db : Database,
      loadDatabase id (diskWith nullEntryJson) (utf8 ".tagger") = Except.ok db ∧
      mapGet db.Entries (utf8 "/f") = some none ∧
      addFileTags db (utf8 "/f") [utf8 "red"] = none ∧
      (addFileTags db (utf8 "/f") []).map (fun d => mapGet d.Entries (utf8 "/f")) =
        some (some none)) :=
  ⟨⟨_, rfl, rfl, rfl⟩, ⟨_, rfl, by decide, rfl, by decide⟩⟩

/-- C2: from the empty database that `loadDatabase` returns for a missing
file, any sequence of `addFileTags` calls whose distinct names are no more
than the largest `int` (the size of a Go map is an `int`) runs without
panic, and afterwards `Tags` and `TagsByName` are inverse to each other
and every key of `Tags` lies between 1 and `LastTag`. -/
theorem catalog_inverse_from_empty
    (visit : List (Sigma fun _ : Int => GoString) → List (Sigma fun _ : Int => GoString))
    (disk : Disk) (filename : GoString) (calls : List (GoString × List GoString))
    (hmissing : disk.file filename = FileState.missing)
    (hfit : ((newNames [] (callNames calls)).length : Int) ≤ maxInt) :
    ∃ db0 db : Database,
      loadDatabase visit disk filename = Except.ok db0 ∧
      addFileTagsCalls db0 calls = some db ∧
      (∀ (id : Int) (name : GoString),
        mapGet db.Tags id = some name ↔ mapGet db.TagsByName name = some id) ∧
      (∀ (id : Int) (name : GoString), mapGet db.Tags id = some name →
        1 ≤ id ∧ id ≤ db.LastTag) := by
  obtain ⟨db, hdb, _⟩ := addFileTagsCalls_total calls emptyDatabase ⟨rfl, rfl, rfl⟩
    (fun c _ h => by
      have h' : (∅ : GoMap GoString (Option FileTags)).lookup c.1 = some none := h
      simp at h')
  refine ⟨emptyDatabase, db, ?_, hdb, ?_⟩
  · unfold loadDatabase; simp only [hmissing]
  · obtain ⟨r, hr, hcat⟩ := addFileTagsCalls_catalog calls emptyDatabase db hdb
    have hinv : CatalogInv r.1 :=
      resolveAll_induct CatalogInv
        (fun d t r1 hP hnone h1 _ hhi => catalogInv_step d t r1 hP hnone h1 hhi)
        (callNames calls) emptyDatabase r hr catalogInv_empty (by decide)
        (by
          show (0 : Int) + ((newNames [] (callNames calls)).length : Int) ≤ maxInt
          omega)
    rw [hcat.1, hcat.2.1, hcat.2.2]
    exact ⟨hinv.1, hinv.2.1⟩

/-- C2, at the two calls of the scenario of the specification. -/
theorem catalog_inverse_from_empty_witness :
    emptyDisk.file (utf8 ".tagger") = FileState.missing ∧
    ((newNames [] (callNames scenarioCalls)).length : Int) ≤ maxInt ∧
    ∃ db0 db : Database,
      loadDatabase id emptyDisk (utf8 ".tagger") = Except.ok db0 ∧
      addFileTagsCalls db0 scenarioCalls = some db ∧
      (∀ (id : Int) (name : GoString),
        mapGet db.Tags id = some name ↔ mapGet db.TagsByName name = some id) ∧
      (∀ (id : Int) (name : GoString), mapGet db.Tags id = some name →
        1 ≤ id ∧ id ≤ db.LastTag) :=
  ⟨rfl, by decide,
    catalog_inverse_from_empty id emptyDisk (utf8 ".tagger") scenarioCalls rfl (by decide)⟩

/-- C3, as amended: a sequence of `addFileTags` calls runs without panic
when the three maps are allocated and no called file has a nil entry.
Whenever it runs without panic, every occurrence of a name is resolved to
the id that `TagsByName` holds for it at the end (so two occurrences of a
name get the same id) and known names keep their id; when moreover
`LastTag` plus the number `N` of distinct new names stays within `int`, the
new names receive `LastTag+1, LastTag+2, ...` in order of first occurrence
and `LastTag` ends `N` higher. -/
theorem tag_ids_allocated (db : Database) (pre : List (GoString × List GoString))
    (f : GoString) (tags : List GoString) (post : List (GoString × List GoString)) :
    (Allocated db →
      (∀ c ∈ pre ++ (f, tags) :: post, mapGet db.Entries c.1 ≠ some none) →
      ∃ final : Database, addFileTagsCalls db (pre ++ (f, tags) :: post) = some final) ∧
    (∀ final : Database, addFileTagsCalls db (pre ++ (f, tags) :: post) = some final →
      (∃ (before mid : Database) (ids : List Int),
        addFileTagsCalls db pre = some before ∧
        addFileTags before f tags = some mid ∧
        ids.length = tags.length ∧
        ids.map some = tags.map (mapGet final.TagsByName) ∧
        (mapGet before.Entries f ≠ some none →
          mapGet mid.Entries f =
            some (some { Hash := (entryOf before f).Hash,
                         Tags := (entryOf before f).Tags ++ ids }))) ∧
      (∀ (n : GoString) (id : Int), mapGet db.TagsByName n = some id →
        mapGet final.TagsByName n = some id) ∧
      (-9223372036854775808 ≤ db.LastTag →
        db.LastTag +
          (newNames (mapKeys db.TagsByName)
            (callNames (pre ++ (f, tags) :: post))).length ≤ maxInt →
        final.LastTag = db.LastTag +
          (newNames (mapKeys db.TagsByName) (callNames (pre ++ (f, tags) :: post))).length ∧
        ∀ (i : Nat) (n : GoString),
          (newNames (mapKeys db.TagsByName) (callNames (pre ++ (f, tags) :: post)))[i]? =
            some n →
          mapGet final.TagsByName n = some (db.LastTag + 1 + i))) := by
  constructor
  · intro halloc hptr
    obtain ⟨final, h, _⟩ := addFileTagsCalls_total _ db halloc hptr
    exact ⟨final, h⟩
  · intro final hfinal
    obtain ⟨r, hr, hcat⟩ := addFileTagsCalls_catalog _ db final hfinal
    refine ⟨?_, fun n id h => addFileTagsCalls_keeps _ db final n id hfinal h, ?_⟩
    · have hsplit := addFileTagsCalls_append pre ((f, tags) :: post) db
      rw [hfinal] at hsplit
      cases hbefore : addFileTagsCalls db pre with
      | none => rw [hbefore] at hsplit; cases hsplit
      | some before =>
        rw [hbefore] at hsplit
        have hrest : addFileTagsCalls before ((f, tags) :: post) = some final := hsplit.symm
        obtain ⟨mid, hmid, hpost⟩ := addFileTagsCalls_cons before (f, tags) post final hrest
        obtain ⟨m, hm, h1 | h1⟩ := addFileTags_some before f tags mid hmid
        · obtain ⟨ht, hnil, _⟩ := h1
          subst ht
          exact ⟨before, mid, [], rfl, hmid, rfl, rfl, fun c => absurd hnil c⟩
        · obtain ⟨_, r1, hr1, hd⟩ := h1
          refine ⟨before, mid, r1.2, rfl, hmid, resolveAll_length tags before r1 hr1, ?_, ?_⟩
          · rw [resolveAll_ids tags before r1 hr1]
            apply List.map_congr_left
            intro t ht
            obtain ⟨id, hid⟩ := resolveAll_lookup_mem tags before r1 t hr1 ht
            have hmidk : mapGet mid.TagsByName t = some id := by rw [hd]; exact hid
            rw [hid, addFileTagsCalls_keeps post mid final t id hpost hmidk]
          · intro _; rw [hd]; exact AList.lookup_insert _
    · intro hlo hhi
      have hids := resolveAll_fresh_ids _ db r hr hlo hhi
      refine ⟨by rw [hcat.2.2]; exact hids.1, ?_⟩
      intro i n h; rw [hcat.2.1]; exact hids.2 i n h


/-- C3, as amended, at three calls on the empty database: they run, the
second call resolves `red, blue, red` to `1, 2, 1`, the new name `green`
of the third call gets id 3, and `LastTag` ends at 3. -/
theorem tag_ids_allocated_witness :
    (Allocated emptyDatabase ∧
      (∀ c ∈ threeCallsHead ++ (utf8 "/b", redBlueRed) :: threeCallsTail,
        mapGet emptyDatabase.Entries c.1 ≠ some none) ∧
      -9223372036854775808 ≤ emptyDatabase.LastTag ∧
      emptyDatabase.LastTag +
        (newNames (mapKeys emptyDatabase.TagsByName)
          (callNames (threeCallsHead ++ (utf8 "/b", redBlueRed) :: threeCallsTail))).length ≤
        maxInt) ∧
    (∃ final : Database,
      addFileTagsCalls emptyDatabase
        (threeCallsHead ++ (utf8 "/b", redBlueRed) :: threeCallsTail) = some final ∧
      (∃ (before mid : Database) (ids : List Int),
        addFileTagsCalls emptyDatabase threeCallsHead = some before ∧
        addFileTags before (utf8 "/b") redBlueRed = some mid ∧
        ids.length = redBlueRed.length ∧
        ids.map some = redBlueRed.map (mapGet final.TagsByName) ∧
        (mapGet before.Entries (utf8 "/b") ≠ some none →
          mapGet mid.Entries (utf8 "/b") =
            some (some { Hash := (entryOf before (utf8 "/b")).Hash,
                         Tags := (entryOf before (utf8 "/b")).Tags ++ ids }))) ∧
      final.LastTag = emptyDatabase.LastTag +
        (newNames (mapKeys emptyDatabase.TagsByName)
          (callNames (threeCallsHead ++ (utf8 "/b", redBlueRed) :: threeCallsTail))).length ∧
      mapGet final.TagsByName (utf8 "green") = some (emptyDatabase.LastTag + 1 + (2 : Nat))) ∧
    (addFileTagsCalls emptyDatabase (threeCallsHead ++ [(utf8 "/b", redBlueRed)])).map
      (fun d => mapGet d.Entries (utf8 "/b")) =
        some (some (some { Hash := [], Tags := [1, 2, 1] })) ∧
    (addFileTagsCalls emptyDatabase
        (threeCallsHead ++ (utf8 "/b", redBlueRed) :: threeCallsTail)).map
      (fun d => (d.LastTag, mapGet d.TagsByName (utf8 "green"))) = some (3, some 3) := by
  obtain ⟨final, hfinal⟩ :=
    (tag_ids_allocated emptyDatabase threeCallsHead (utf8 "/b") redBlueRed threeCallsTail).1
      ⟨rfl, rfl, rfl⟩ (by decide)
  have h := (tag_ids_allocated emptyDatabase threeCallsHead (utf8 "/b") redBlueRed
    threeCallsTail).2 final hfinal
  have hnum := h.2.2 (by decide) (by decide)
  exact ⟨⟨⟨rfl, rfl, rfl⟩, by decide, by decide, by decide⟩,
    ⟨final, hfinal, h.1, hnum.1, hnum.2 2 (utf8 "green") (by decide)⟩, by decide, by decide⟩

/-- C3 fails as stated.  A snapshot file whose `lastTag` is the largest
`int` loads, and the new name then gets the smallest `int`, which is
neither `LastTag + 1` nor larger than `LastTag`, and `LastTag` does not end
one higher.  A snapshot file whose `Tags` member is `null` loads with a nil
map, on which `addFileTags` panics before the new name has its id. -/
theorem tag_ids_overflow_counterexample :
    (∃ db db' : Database,
      loadDatabase id (diskWith lastTagMaxJson) (utf8 ".tagger") = Except.ok db ∧
      db.LastTag = 9223372036854775807 ∧
      mapGet db.TagsByName (utf8 "red") = none ∧
      addFileTags db (utf8 "/f") [utf8 "red"] = some db' ∧
      mapGet db'.TagsByName (utf8 "red") = some (-9223372036854775808) ∧
      ¬ (mapGet db'.TagsByName (utf8 "red") = some (db.LastTag + 1)) ∧
      ¬ (db'.LastTag = db.LastTag + 1)) ∧
    (∃ db : Database,
      loadDatabase id (diskWith nullTagsJson) (utf8 ".tagger") = Except.ok db ∧
      db.Tags = none ∧
      addFileTags db (utf8 "/f") [utf8 "red"] = none) :=
  ⟨⟨_, _, rfl, by decide, by decide, rfl, by decide, by decide, by decide⟩,
    ⟨_, rfl, rfl, rfl⟩⟩

/-- C4, as amended: when every key of `Tags` is at most `LastTag` and
`LastTag` plus the number of new names stays within `int`, a call of
`addFileTags` that returns keeps every id-to-name pair of `Tags`, and the
id it gives to a new name was not a key of `Tags` before the call; the
call returns when the three maps are allocated and the pointer stored
under `file` is not nil. -/
theorem addFileTags_keeps_tags (db : Database) (file : GoString) (tags : List GoString)
    (hlo : -9223372036854775808 ≤ db.LastTag)
    (hkeys : ∀ (id : Int) (name : GoString), mapGet db.Tags id = some name →
      id ≤ db.LastTag)
    (hhi : db.LastTag + (newNames (mapKeys db.TagsByName) tags).length ≤ maxInt) :
    (Allocated db → mapGet db.Entries file ≠ some none →
      ∃ db' : Database, addFileTags db file tags = some db') ∧
    (∀ db' : Database, addFileTags db file tags = some db' →
      (∀ (id : Int) (name : GoString), mapGet db.Tags id = some name →
        mapGet db'.Tags id = some name) ∧
      (∀ n : GoString, n ∈ newNames (mapKeys db.TagsByName) tags →
        ∃ id : Int, mapGet db'.TagsByName n = some id ∧ mapGet db.Tags id = none)) := by
  constructor
  · intro halloc hptr
    obtain ⟨d, hd, _⟩ := addFileTags_total db file tags halloc hptr
    exact ⟨d, hd⟩
  · intro db' h
    obtain ⟨r, hr, hcat⟩ := addFileTags_catalog db file tags db' h
    have hP := resolveAll_induct
      (fun d => (∀ (id : Int) (name : GoString), mapGet d.Tags id = some name →
          id ≤ d.LastTag) ∧
        (∀ (id : Int) (name : GoString), mapGet db.Tags id = some name →
          mapGet d.Tags id = some name))
      (fun d t r1 hP hnone h1 hlo hhi => keysBound_step db d t r1 hP hnone h1 hlo hhi)
      tags db r hr ⟨hkeys, fun _ _ h => h⟩ hlo hhi
    have hinv := resolveAll_fresh_ids tags db r hr hlo hhi
    refine ⟨fun id name h => by rw [hcat.1]; exact hP.2 id name h, ?_⟩
    intro n hn
    obtain ⟨i, hi, hget⟩ := List.getElem_of_mem hn
    have hget' : (newNames (mapKeys db.TagsByName) tags)[i]? = some n := by
      rw [List.getElem?_eq_getElem hi, hget]
    have hlook := hinv.2 i n hget'
    refine ⟨db.LastTag + 1 + i, by rw [hcat.2.1]; exact hlook, ?_⟩
    cases hq : mapGet db.Tags (db.LastTag + 1 + i) with
    | none => rfl
    | some name => have := hkeys _ name hq; omega

theorem redDatabase_keys (id : Int) (name : GoString)
    (h : mapGet redDatabase.Tags id = some name) : id ≤ redDatabase.LastTag := by
  have h' : (AList.singleton 1 (utf8 "red") : GoMap Int GoString).lookup id = some name := h
  by_cases hid : id = 1
  · subst hid; decide
  · have hmem := AList.mem_lookup_iff.1 h'
    simp only [AList.singleton_entries, List.mem_singleton, Sigma.mk.inj_iff] at hmem
    exact absurd hmem.1 hid

/-- C4, as amended, at the database that holds the tag `red` and is given
`red` and the new name `blue`: the call returns, `red` keeps id 1 and
`blue` gets an id that was no key of `Tags`. -/
theorem addFileTags_keeps_tags_witness :
    addFileTags emptyDatabase (utf8 "/a") [utf8 "red"] = some redDatabase ∧
    (-9223372036854775808 ≤ redDatabase.LastTag ∧
      (∀ (id : Int) (name : GoString), mapGet redDatabase.Tags id = some name →
        id ≤ redDatabase.LastTag) ∧
      redDatabase.LastTag +
        (newNames (mapKeys redDatabase.TagsByName) [utf8 "red", utf8 "blue"]).length ≤ maxInt) ∧
    ∃ db' : Database,
      addFileTags redDatabase (utf8 "/b") [utf8 "red", utf8 "blue"] = some db' ∧
      mapGet db'.Tags 1 = some (utf8 "red") ∧
      ∃ id : Int, mapGet db'.TagsByName (utf8 "blue") = some id ∧
        mapGet redDatabase.Tags id = none :=
  ⟨rfl, ⟨by decide, redDatabase_keys, by decide⟩, _, rfl,
    ((addFileTags_keeps_tags redDatabase (utf8 "/b") [utf8 "red", utf8 "blue"]
      (by decide) redDatabase_keys (by decide)).2 _ rfl).1 1 (utf8 "red") (by decide),
    ((addFileTags_keeps_tags redDatabase (utf8 "/b") [utf8 "red", utf8 "blue"]
      (by decide) redDatabase_keys (by decide)).2 _ rfl).2 (utf8 "blue") (by decide)⟩

/-- C4 fails as stated: a snapshot file with `Tags = {1: "red"}` and no
`lastTag` loads without error; `addFileTags` with the new name `"blue"` then
allocates id 1, which was a key of `Tags`, and the pair `(1, "red")` is
replaced by `(1, "blue")`. -/
theorem addFileTags_reuses_id_counterexample :
    ∃ db db' : Database,
      loadDatabase id (diskWith oneTagJson) (utf8 ".tagger") = Except.ok db ∧
      mapGet db.Tags 1 = some (utf8 "red") ∧
      mapGet db.TagsByName (utf8 "blue") = none ∧
      addFileTags db (utf8 "/f") [utf8 "blue"] = some db' ∧
      mapGet db'.TagsByName (utf8 "blue") = some 1 ∧
      mapGet db'.Tags 1 = some (utf8 "blue") :=
  ⟨_, _, rfl, by decide, by decide, rfl, by decide, by decide⟩


/-! ## The claims on `searchByTag` -/

theorem hasTag_iff (tid : Int) (l : List Int) : hasTag tid l = true ↔ tid ∈ l := by
  induction l with
  | nil => simp [hasTag]
  | cons t rest ih =>
    unfold hasTag
    by_cases h : t = tid
    · simp [h]
    · have h' : ¬ tid = t := fun c => h c.symm
      simp [h, h', ih]

theorem searchLoop_none_iff (tid : Int) (l : List (Sigma fun _ : GoString => Option FileTags))
    (acc : List GoString) : searchLoop tid acc l = none ↔ ∃ p ∈ l, p.2 = none := by
  induction l generalizing acc with
  | nil => simp [searchLoop]
  | cons p ps ih =>
    unfold searchLoop
    cases hp : p.2 with
    | none => simp [hp]
    | some current =>
      simp only [List.mem_cons, exists_eq_or_imp, hp, false_or, reduceCtorEq]
      exact ih _

theorem searchLoop_some (tid : Int) (l : List (Sigma fun _ : GoString => Option FileTags))
    (acc r : List GoString) (h : searchLoop tid acc l = some r) :
    r = acc ++ (l.filter (matchesTag tid)).map Sigma.fst := by
  induction l generalizing acc with
  | nil =>
    simp only [searchLoop, Option.some.injEq] at h
    simp [h]
  | cons p ps ih =>
    unfold searchLoop at h
    cases hp : p.2 with
    | none => rw [hp] at h; cases h
    | some current =>
      rw [hp] at h
      simp only [] at h
      have hm : matchesTag tid p = hasTag tid current.Tags := by
        unfold matchesTag; rw [hp]
      rw [ih _ h, List.filter_cons, hm]
      by_cases ht : hasTag tid current.Tags = true
      · simp [ht]
      · simp [ht]

theorem mem_mapEntries {K V : Type} [DecidableEq K] (m : Option (GoMap K V)) (k : K) (v : V) :
    Sigma.mk k v ∈ mapEntries m ↔ mapGet m k = some v := by
  cases m with
  | none => simp [mapEntries, mapGet]
  | some a => exact AList.mem_lookup_iff.symm

theorem mapEntries_nodup {K V : Type} (m : Option (GoMap K V)) :
    ((mapEntries m).map Sigma.fst).Nodup := by
  cases m with
  | none => exact List.nodup_nil
  | some a => exact a.nodupKeys

/-- C7, as amended: whatever the order in which the entries are visited,
`searchByTag` returns the empty list for a name that is not in
`TagsByName`; for a name with id `tid` it panics exactly when some entry is
a nil pointer, and otherwise returns, each once, exactly the paths whose
tag sequence holds `tid`; in the scenario of the specification the result
is `["/doc.txt"]`. -/
theorem searchByTag_paths
    (visit : List (Sigma fun _ : GoString => Option FileTags) →
      List (Sigma fun _ : GoString => Option FileTags))
    (hvisit : ∀ l, (visit l).Perm l) (db : Database) (tag : GoString) :
    (mapGet db.TagsByName tag = none → searchByTag visit db tag = some []) ∧
    (∀ tid : Int, mapGet db.TagsByName tag = some tid →
      (searchByTag visit db tag = none ↔
        ∃ path : GoString, mapGet db.Entries path = some none) ∧
      ∀ result : List GoString, searchByTag visit db tag = some result →
        result.Nodup ∧
        ∀ path : GoString, path ∈ result ↔
          ∃ e : FileTags, mapGet db.Entries path = some (some e) ∧ tid ∈ e.Tags) ∧
    (∃ db1 : Database, addFileTagsCalls emptyDatabase scenarioCalls = some db1 ∧
      searchByTag visit db1 (utf8 "red") = some [utf8 "/doc.txt"]) := by
  refine ⟨?_, ?_, ?_⟩
  · intro h; unfold searchByTag; rw [h]
  · intro tid h
    have hs : searchByTag visit db tag = searchLoop tid [] (visit (mapEntries db.Entries)) := by
      unfold searchByTag; rw [h]
    have hp := hvisit (mapEntries db.Entries)
    rw [hs]
    constructor
    · rw [searchLoop_none_iff]
      constructor
      · rintro ⟨⟨k, v⟩, hmem, hv⟩
        simp only at hv
        subst hv
        exact ⟨k, (mem_mapEntries _ _ _).1 (hp.mem_iff.1 hmem)⟩
      · rintro ⟨path, hpath⟩
        exact ⟨⟨path, none⟩, hp.mem_iff.2 ((mem_mapEntries _ _ _).2 hpath), rfl⟩
    · intro result hres
      rw [searchLoop_some tid _ [] result hres, List.nil_append]
      constructor
      · exact List.Nodup.sublist (List.Sublist.map _ (List.filter_sublist _))
          ((hp.map Sigma.fst).nodup_iff.2 (mapEntries_nodup db.Entries))
      · intro path
        simp only [List.mem_map, List.mem_filter]
        constructor
        · rintro ⟨⟨k, v⟩, ⟨hmem, hmatch⟩, rfl⟩
          cases v with
          | none => simp [matchesTag] at hmatch
          | some e =>
            exact ⟨e, (mem_mapEntries _ _ _).1 (hp.mem_iff.1 hmem),
              (hasTag_iff tid e.Tags).1 hmatch⟩
        · rintro ⟨e, hlook, htag⟩
          exact ⟨⟨path, some e⟩,
            ⟨hp.mem_iff.2 ((mem_mapEntries _ _ _).2 hlook), (hasTag_iff tid e.Tags).2 htag⟩,
            rfl⟩
  · refine ⟨_, rfl, ?_⟩
    have hv := hvisit [⟨utf8 "/doc.txt", some { Hash := [], Tags := [1, 2] }⟩]
    have hone := List.perm_singleton.1 hv
    show (match mapGet (some ((AList.singleton (utf8 "red") 1 : GoMap GoString Int).insert
        (utf8 "blue") 2)) (utf8 "red") with
      | none => some []
      | some tid => searchLoop tid []
          (visit [⟨utf8 "/doc.txt", some { Hash := [], Tags := [1, 2] }⟩])) = _
    rw [hone]
    decide

/-- C7, as amended, with the entries visited in stored order, on a database
with two tagged files: `red` has id 1 and is found on both files. -/
theorem searchByTag_paths_witness :
    (∀ l : List (Sigma fun _ : GoString => Option FileTags), (id l).Perm l) ∧
    addFileTagsCalls emptyDatabase twoFilesCalls = some twoFilesDatabase ∧
    mapGet twoFilesDatabase.TagsByName (utf8 "red") = some 1 ∧
    searchByTag id twoFilesDatabase (utf8 "red") = some [utf8 "/b", utf8 "/a"] ∧
    [utf8 "/b", utf8 "/a"].Nodup ∧
    ∀ path : GoString, path ∈ [utf8 "/b", utf8 "/a"] ↔
      ∃ e : FileTags, mapGet twoFilesDatabase.Entries path = some (some e) ∧
        (1 : Int) ∈ e.Tags :=
  ⟨fun l => List.Perm.refl l, rfl, by decide, by decide,
    (((searchByTag_paths id (fun l => List.Perm.refl l) twoFilesDatabase (utf8 "red")).2.1 1
      (by decide)).2 [utf8 "/b", utf8 "/a"] (by decide)).1,
    (((searchByTag_paths id (fun l => List.Perm.refl l) twoFilesDatabase (utf8 "red")).2.1 1
      (by decide)).2 [utf8 "/b", utf8 "/a"] (by decide)).2⟩

/-- C7 fails as stated: a snapshot file with the tag `1: "red"` and the
entry `"/f": null` loads without error, and `searchByTag` for `red` then
panics at line 103 instead of returning a list. -/
theorem searchByTag_nil_counterexample :
    ∃ db : Database,
      loadDatabase id (diskWith nullEntryJson) (utf8 ".tagger") = Except.ok db ∧
      mapGet db.TagsByName (utf8 "red") = some 1 ∧
      mapGet db.Entries (utf8 "/f") = some none ∧
      searchByTag id db (utf8 "red") = none ∧
      searchByTag List.reverse db (utf8 "red") = none :=
  ⟨_, rfl, by decide, by decide, by decide, by decide⟩


/-! ## The claims on `loadDatabase` and `saveDatabase` -/

theorem toValidUTF8_of_valid (fuel : Nat) (s : GoString)
    (h : validUTF8Steps fuel s = true) : toValidUTF8 fuel s = s := by
  induction fuel generalizing s with
  | zero =>
    cases s with
    | nil => rfl
    | cons b rest => simp [validUTF8Steps] at h
  | succ n ih =>
    cases s with
    | nil => rfl
    | cons b rest =>
      cases hr : runeSize (b :: rest) with
      | none => simp [validUTF8Steps, hr] at h
      | some k =>
        simp only [validUTF8Steps, hr] at h
        simp only [toValidUTF8, hr]
        rw [ih _ h, List.take_append_drop]

theorem jsonText_of_valid (s : GoString) (h : validUTF8 s = true) : jsonText s = s :=
  toValidUTF8_of_valid s.length s h

theorem lookup_foldl_insert {K V α : Type} [DecidableEq K] (key : α → K) (val : α → V)
    (l : List α) (hl : (l.map key).Nodup) (acc : GoMap K V) (k : K) (v : V) :
    (l.foldl (fun m p => m.insert (key p) (val p)) acc).lookup k = some v ↔
      ((∃ p ∈ l, key p = k ∧ val p = v) ∨ (k ∉ l.map key ∧ acc.lookup k = some v)) := by
  induction l generalizing acc with
  | nil => simp
  | cons p ps ih =>
    have hnd := List.nodup_cons.1 hl
    rw [List.foldl_cons, ih hnd.2]
    by_cases hk : k = key p
    · subst hk
      have hnot : key p ∉ ps.map key := hnd.1
      have hmem : ∀ q ∈ ps, key q ≠ key p := fun q hq c =>
        hnot (List.mem_map.2 ⟨q, hq, c⟩)
      rw [AList.lookup_insert]
      constructor
      · rintro (⟨q, hq, hqk, _⟩ | ⟨_, hv⟩)
        · exact absurd hqk (hmem q hq)
        · exact Or.inl ⟨p, List.mem_cons_self _ _, rfl, Option.some.inj hv⟩
      · rintro (⟨q, hq, hqk, hqv⟩ | ⟨hn, _⟩)
        · rcases List.mem_cons.1 hq with e | e
          · subst e; exact Or.inr ⟨hnot, congrArg some hqv⟩
          · exact absurd hqk (hmem q e)
        · exact absurd (List.mem_map.2 ⟨p, List.mem_cons_self _ _, rfl⟩) hn
    · rw [AList.lookup_insert_ne hk]
      constructor
      · rintro (⟨q, hq, hqk, hqv⟩ | ⟨hn, hv⟩)
        · exact Or.inl ⟨q, List.mem_cons_of_mem _ hq, hqk, hqv⟩
        · refine Or.inr ⟨?_, hv⟩
          simp only [List.map_cons, List.mem_cons, not_or]
          exact ⟨hk, hn⟩
      · rintro (⟨q, hq, hqk, hqv⟩ | ⟨hn, hv⟩)
        · rcases List.mem_cons.1 hq with e | e
          · subst e; exact absurd hqk.symm hk
          · exact Or.inl ⟨q, e, hqk, hqv⟩
        · simp only [List.map_cons, List.mem_cons, not_or] at hn
          exact Or.inr ⟨hn.2, hv⟩

theorem dlookup_map_values {K V W : Type} [DecidableEq K] (f : V → W) (k : K)
    (l : List (Sigma fun _ : K => V)) :
    List.dlookup k (l.map (fun p => (⟨p.1, f p.2⟩ : Sigma fun _ : K => W))) =
      (List.dlookup k l).map f := by
  induction l with
  | nil => rfl
  | cons p ps ih =>
    obtain ⟨a, b⟩ := p
    by_cases h : a = k
    · subst h; simp [List.dlookup_cons_eq]
    · simp only [List.map_cons]
      rw [List.dlookup_cons_ne _ _ (fun c => h c.symm),
        List.dlookup_cons_ne _ _ (fun c => h c.symm)]
      exact ih

theorem lookup_mapValues {K V W : Type} [DecidableEq K] (f : V → W) (m : GoMap K V) (k : K) :
    (mapValues f m).lookup k = (m.lookup k).map f :=
  dlookup_map_values f k m.entries

theorem unmarshal_marshalFileTags (f : FileTags) (h : validUTF8 f.Hash = true) :
    unmarshalFileTags (marshalFileTags f) = f := by
  obtain ⟨hash, t⟩ := f
  have hj : jsonText hash = hash := jsonText_of_valid hash h
  unfold unmarshalFileTags marshalFileTags
  by_cases hh : hash = [] <;> by_cases ht : t = [] <;> simp [hh, ht, hj]

/-- The entries read back from what `json.Marshal` wrote for a map whose
paths and hashes are well-formed UTF-8. -/
theorem lookup_storeMembers_marshalEntries (m : GoMap GoString (Option FileTags))
    (hvalid : ∀ (path : GoString) (e : Option FileTags), m.lookup path = some e →
      validUTF8 path = true ∧ ∀ f : FileTags, e = some f → validUTF8 f.Hash = true)
    (path : GoString) :
    (storeMembers (marshalEntries m) ∅).lookup path = m.lookup path := by
  have hperm := List.perm_insertionSort
    (fun p q : (Sigma fun _ : GoString => Option FileTags) => bytesLe p.1 q.1 = true) m.entries
  have hkey : ∀ q ∈ m.entries.insertionSort (fun p q => bytesLe p.1 q.1 = true),
      jsonText q.1 = q.1 ∧ (q.2.map marshalFileTags).map unmarshalFileTags = q.2 := by
    rintro ⟨k, v⟩ hq
    have hl : m.lookup k = some v := AList.mem_lookup_iff.2 (hperm.mem_iff.1 hq)
    obtain ⟨hk, hv⟩ := hvalid k v hl
    refine ⟨jsonText_of_valid k hk, ?_⟩
    cases v with
    | none => rfl
    | some f => simp [unmarshal_marshalFileTags f (hv f rfl)]
  have hkeys : (marshalEntries m).map Prod.fst =
      (m.entries.insertionSort fun p q => bytesLe p.1 q.1 = true).map Sigma.fst := by
    unfold marshalEntries
    rw [List.map_map]
    apply List.map_congr_left
    intro q hq
    exact (hkey q hq).1
  have hnd : ((marshalEntries m).map Prod.fst).Nodup := by
    rw [hkeys]
    exact (hperm.map Sigma.fst).nodup_iff.2 m.nodupKeys
  apply Option.ext
  intro x
  rw [Option.mem_def, Option.mem_def]
  unfold storeMembers
  rw [lookup_foldl_insert Prod.fst (fun p => p.2.map unmarshalFileTags) _ hnd]
  simp only [AList.lookup_empty, and_false, or_false, reduceCtorEq]
  constructor
  · rintro ⟨p, hp, hpk, hpv⟩
    unfold marshalEntries at hp
    obtain ⟨q, hq, rfl⟩ := List.mem_map.1 hp
    obtain ⟨h1, h2⟩ := hkey q hq
    simp only at hpk hpv
    rw [h1] at hpk
    rw [h2] at hpv
    subst hpk hpv
    exact AList.mem_lookup_iff.2 (hperm.mem_iff.1 hq)
  · intro hx
    have hq := hperm.mem_iff.2 (AList.mem_lookup_iff.1 hx)
    obtain ⟨h1, h2⟩ := hkey ⟨path, x⟩ hq
    refine ⟨(jsonText path, (x.map marshalFileTags)), ?_, h1, h2⟩
    unfold marshalEntries
    exact List.mem_map.2 ⟨⟨path, x⟩, hq, rfl⟩

theorem unmarshal_marshal_entries (db : Database)
    (hpaths : ∀ (path : GoString) (e : Option FileTags), mapGet db.Entries path = some e →
      validUTF8 path = true ∧ ∀ f : FileTags, e = some f → validUTF8 f.Hash = true)
    (path : GoString) :
    mapGet (unmarshal (marshal db) emptyDatabase).Entries path = mapGet db.Entries path := by
  cases he : db.Entries with
  | none =>
    have h1 : (unmarshal (marshal db) emptyDatabase).Entries = some ∅ := by
      simp [unmarshal, marshal, he, emptyDatabase]
    rw [h1]; rfl
  | some m =>
    by_cases h : m.entries = []
    · have h1 : (unmarshal (marshal db) emptyDatabase).Entries = some ∅ := by
        simp [unmarshal, marshal, he, h, emptyDatabase]
      rw [h1]
      show (∅ : GoMap GoString (Option FileTags)).lookup path = List.dlookup path m.entries
      rw [h]; rfl
    · have h1 : (unmarshal (marshal db) emptyDatabase).Entries =
          some (storeMembers (marshalEntries m) ∅) := by
        simp [unmarshal, marshal, he, h, emptyDatabase]
      rw [h1]
      rw [he] at hpaths
      exact lookup_storeMembers_marshalEntries m hpaths path

theorem unmarshal_marshal_tags (db : Database) (id : Int) :
    mapGet (unmarshal (marshal db) emptyDatabase).Tags id =
      (mapGet db.Tags id).map jsonText := by
  cases ht : db.Tags with
  | none =>
    have h1 : (unmarshal (marshal db) emptyDatabase).Tags = some ∅ := by
      simp [unmarshal, marshal, ht, emptyDatabase]
    rw [h1]; rfl
  | some m =>
    by_cases h : m.entries = []
    · have h1 : (unmarshal (marshal db) emptyDatabase).Tags = some ∅ := by
        simp [unmarshal, marshal, ht, h, emptyDatabase]
      rw [h1]
      show (∅ : GoMap Int GoString).lookup id = (List.dlookup id m.entries).map jsonText
      rw [h]; rfl
    · have h1 : (unmarshal (marshal db) emptyDatabase).Tags =
          some (mapValues jsonText m ∪ ∅) := by
        simp [unmarshal, marshal, ht, h, emptyDatabase]
      rw [h1, AList.union_empty]
      exact lookup_mapValues jsonText m id

theorem unmarshal_marshal_lastTag (db : Database) :
    (unmarshal (marshal db) emptyDatabase).LastTag = db.LastTag := by
  by_cases h : db.LastTag = 0
  · simp [unmarshal, marshal, h, emptyDatabase]
  · simp [unmarshal, marshal, h, emptyDatabase]

theorem loadDatabase_json
    (visit : List (Sigma fun _ : Int => GoString) → List (Sigma fun _ : Int => GoString))
    (disk : Disk) (filename : GoString) (doc : DatabaseJson)
    (hfile : disk.file filename = FileState.json doc) :
    loadDatabase visit disk filename =
      if (unmarshal doc emptyDatabase).Version ≠ (1, 0, 0) then Except.error LoadError.version
      else Except.ok { unmarshal doc emptyDatabase with
        TagsByName := some (rebuildTagsByName
          (visit (mapEntries (unmarshal doc emptyDatabase).Tags))
          ((unmarshal doc emptyDatabase).TagsByName.getD ∅)) } := by
  unfold loadDatabase; simp only [hfile]

/-- C5, as amended: for a database of version `[1,0,0]`, at a location
where `os.WriteFile` succeeds and the written file can be read,
`saveDatabase` succeeds and `loadDatabase` from the same file then
succeeds and returns a database with the same
`LastTag`; its `Tags` is the saved mapping with every name rewritten to
well-formed UTF-8, so the same mapping when the names are well-formed; its
entries are the same (the same paths, each with the same hash and tag
sequence, or the same nil pointer) when the paths and hashes are
well-formed UTF-8; all this also where empty, nil or zero values were
left out of the file. -/
theorem save_load_roundtrip
    (visit : List (Sigma fun _ : Int => GoString) → List (Sigma fun _ : Int => GoString))
    (disk : Disk) (filename : GoString) (db : Database)
    (hver : db.Version = (1, 0, 0))
    (hwrite : disk.writable filename = true)
    (hread : disk.readable filename = true) :
    ∃ (disk' : Disk) (db' : Database),
      saveDatabase disk filename db = some disk' ∧
      loadDatabase visit disk' filename = Except.ok db' ∧
      db'.LastTag = db.LastTag ∧
      (∀ id : Int, mapGet db'.Tags id = (mapGet db.Tags id).map jsonText) ∧
      ((∀ (id : Int) (name : GoString), mapGet db.Tags id = some name →
          validUTF8 name = true) →
        ∀ id : Int, mapGet db'.Tags id = mapGet db.Tags id) ∧
      ((∀ (path : GoString) (e : Option FileTags), mapGet db.Entries path = some e →
          validUTF8 path = true ∧ ∀ f : FileTags, e = some f → validUTF8 f.Hash = true) →
        ∀ path : GoString, mapGet db'.Entries path = mapGet db.Entries path) := by
  have hsave : saveDatabase disk filename db =
      some { disk with
        file := fun p =>
          if p = filename then written disk filename (marshal db) else disk.file p } := by
    unfold saveDatabase; rw [if_pos hwrite]
  have hload := loadDatabase_json visit
    { disk with
      file := fun p =>
        if p = filename then written disk filename (marshal db) else disk.file p }
    filename (marshal db) (by simp [written, hread])
  have h1 : (unmarshal (marshal db) emptyDatabase).Version = db.Version := rfl
  rw [h1, hver, if_neg (fun c => c rfl)] at hload
  refine ⟨_, _, hsave, hload, unmarshal_marshal_lastTag db, unmarshal_marshal_tags db, ?_,
    fun hpaths => unmarshal_marshal_entries db hpaths⟩
  intro hnames id
  have ht : mapGet (unmarshal (marshal db) emptyDatabase).Tags id =
      (mapGet db.Tags id).map jsonText := unmarshal_marshal_tags db id
  show mapGet (unmarshal (marshal db) emptyDatabase).Tags id = mapGet db.Tags id
  rw [ht]
  cases hl : mapGet db.Tags id with
  | none => rfl
  | some name => simp [jsonText_of_valid name (hnames id name hl)]

theorem twoFiles_paths_valid (path : GoString) (e : Option FileTags)
    (h : mapGet twoFilesDatabase.Entries path = some e) :
    validUTF8 path = true ∧ ∀ f : FileTags, e = some f → validUTF8 f.Hash = true := by
  have hmem := (mem_mapEntries twoFilesDatabase.Entries path e).2 h
  have hentries : mapEntries twoFilesDatabase.Entries =
      [⟨utf8 "/b", some { Hash := [], Tags := [2, 1] }⟩,
       ⟨utf8 "/a", some { Hash := [], Tags := [1] }⟩] := by decide
  rw [hentries] at hmem
  simp only [List.mem_cons, Sigma.mk.inj_iff, heq_eq_eq, List.mem_singleton, List.not_mem_nil,
    or_false] at hmem
  rcases hmem with ⟨rfl, rfl⟩ | ⟨rfl, rfl⟩
  · exact ⟨by decide, fun f hf => by cases hf; decide⟩
  · exact ⟨by decide, fun f hf => by cases hf; decide⟩

theorem twoFiles_names_valid (id : Int) (name : GoString)
    (h : mapGet twoFilesDatabase.Tags id = some name) : validUTF8 name = true := by
  have hmem := (mem_mapEntries twoFilesDatabase.Tags id name).2 h
  have hentries : mapEntries twoFilesDatabase.Tags =
      [⟨2, utf8 "blue"⟩, ⟨1, utf8 "red"⟩] := by decide
  rw [hentries] at hmem
  simp only [List.mem_cons, Sigma.mk.inj_iff, heq_eq_eq, List.mem_singleton, List.not_mem_nil,
    or_false] at hmem
  rcases hmem with ⟨_, rfl⟩ | ⟨_, rfl⟩
  · decide
  · decide

/-- C5, as amended, on the database with two tagged files; the file holds
the two entries, the two tags and `lastTag` 2, and for the empty database
nothing but the version. -/
theorem save_load_roundtrip_witness :
    (twoFilesDatabase.Version = (1, 0, 0) ∧ emptyDisk.writable (utf8 ".tagger") = true ∧
      emptyDisk.readable (utf8 ".tagger") = true ∧
      (∀ (path : GoString) (e : Option FileTags),
        mapGet twoFilesDatabase.Entries path = some e →
        validUTF8 path = true ∧ ∀ f : FileTags, e = some f → validUTF8 f.Hash = true) ∧
      (∀ (id : Int) (name : GoString), mapGet twoFilesDatabase.Tags id = some name →
        validUTF8 name = true)) ∧
    (∃ (disk' : Disk) (db' : Database),
      saveDatabase emptyDisk (utf8 ".tagger") twoFilesDatabase = some disk' ∧
      loadDatabase id disk' (utf8 ".tagger") = Except.ok db' ∧
      db'.LastTag = twoFilesDatabase.LastTag ∧
      (∀ id : Int, mapGet db'.Tags id = mapGet twoFilesDatabase.Tags id) ∧
      (∀ path : GoString, mapGet db'.Entries path = mapGet twoFilesDatabase.Entries path)) ∧
    ((marshal twoFilesDatabase).l = some 2 ∧ (marshal emptyDatabase).l = none) := by
  obtain ⟨disk', db', h1, h2, h3, _, h5, h6⟩ :=
    save_load_roundtrip id emptyDisk (utf8 ".tagger") twoFilesDatabase rfl rfl rfl
  exact ⟨⟨rfl, rfl, rfl, twoFiles_paths_valid, twoFiles_names_valid⟩,
    ⟨disk', db', h1, h2, h3, h5 twoFiles_names_valid, h6 twoFiles_paths_valid⟩, ⟨rfl, rfl⟩⟩

/-- C5 fails as stated: the tag name that is the single byte `0xFF`, not
well-formed UTF-8, is written as U+FFFD; the database of version `[1,0,0]`
that holds it under id 1 is saved and loaded without error, and the loaded
`Tags` holds the bytes `EF BF BD` under id 1. -/
theorem save_load_illFormed_counterexample :
    addFileTagsCalls emptyDatabase illFormedCalls = some illFormedDatabase ∧
    illFormedDatabase.Version = (1, 0, 0) ∧
    mapGet illFormedDatabase.Tags 1 = some [255] ∧
    ∃ (disk' : Disk) (db' : Database),
      saveDatabase emptyDisk (utf8 ".tagger") illFormedDatabase = some disk' ∧
      loadDatabase id disk' (utf8 ".tagger") = Except.ok db' ∧
      mapGet db'.Tags 1 = some [0xEF, 0xBF, 0xBD] ∧
      ¬ (mapGet db'.Tags 1 = mapGet illFormedDatabase.Tags 1) :=
  ⟨rfl, rfl, by decide, _, _, rfl, rfl, by decide, by decide⟩

/-- C6, as amended: for a file that decodes, `loadDatabase` returns an
error exactly when the version member is present and its triple (missing
elements read as zero, `null` elements left at the preset) differs from
`[1,0,0]`; the error is the version error, and a file without a version
member keeps the preset `[1,0,0]` and loads. -/
theorem loadDatabase_version_check
    (visit : List (Sigma fun _ : Int => GoString) → List (Sigma fun _ : Int => GoString))
    (disk : Disk) (filename : GoString) (doc : DatabaseJson)
    (hfile : disk.file filename = FileState.json doc) :
    ((∃ err : LoadError, loadDatabase visit disk filename = Except.error err) ↔
      ∃ xs : List (Option Int), doc.v = some xs ∧
        versionOfArray (1, 0, 0) xs ≠ (1, 0, 0)) ∧
    (∀ err : LoadError, loadDatabase visit disk filename = Except.error err →
      err = LoadError.version) ∧
    (doc.v = none → ∃ db : Database, loadDatabase visit disk filename = Except.ok db ∧
      db.Version = (1, 0, 0)) := by
  rw [loadDatabase_json visit disk filename doc hfile]
  have hv : (unmarshal doc emptyDatabase).Version =
      match doc.v with
      | none => (1, 0, 0)
      | some xs => versionOfArray (1, 0, 0) xs := rfl
  refine ⟨?_, ?_, ?_⟩
  · cases hdoc : doc.v with
    | none =>
      rw [hdoc] at hv
      rw [if_neg (fun c => c hv)]
      constructor
      · rintro ⟨err, h⟩; cases h
      · rintro ⟨xs, h, _⟩; cases h
    | some xs =>
      rw [hdoc] at hv
      by_cases hx : versionOfArray (1, 0, 0) xs = (1, 0, 0)
      · rw [if_neg (fun c => c (hv.trans hx))]
        constructor
        · rintro ⟨err, h⟩; cases h
        · rintro ⟨ys, h, hne⟩
          cases h; exact absurd hx hne
      · rw [if_pos (fun c => hx (hv.symm.trans c))]
        exact ⟨fun _ => ⟨xs, rfl, hx⟩, fun _ => ⟨_, rfl⟩⟩
  · intro err h
    by_cases hx : (unmarshal doc emptyDatabase).Version = (1, 0, 0)
    · rw [if_neg (fun c => c hx)] at h; cases h
    · rw [if_pos hx] at h; cases h; rfl
  · intro hdoc
    rw [hdoc] at hv
    rw [if_neg (fun c => c hv)]
    exact ⟨_, rfl, hv⟩

/-- C6, as amended, at a file of version `[2,0,0]`: it is rejected with the
version error. -/
theorem loadDatabase_version_check_witness :
    (diskWith versionTwoJson).file (utf8 ".tagger") = FileState.json versionTwoJson ∧
    ((∃ err : LoadError,
        loadDatabase id (diskWith versionTwoJson) (utf8 ".tagger") = Except.error err) ↔
      ∃ xs : List (Option Int), versionTwoJson.v = some xs ∧
        versionOfArray (1, 0, 0) xs ≠ (1, 0, 0)) ∧
    loadDatabase id (diskWith versionTwoJson) (utf8 ".tagger") =
      Except.error LoadError.version ∧
    (∃ db : Database,
      loadDatabase id (diskWith nullVersionJson) (utf8 ".tagger") = Except.ok db) :=
  ⟨rfl,
    (loadDatabase_version_check id (diskWith versionTwoJson) (utf8 ".tagger") versionTwoJson
      rfl).1,
    rfl, ⟨_, rfl⟩⟩

/-- C6 fails as stated: the file without any member has no version, which
the claim reads as `[0,0,0]`, different from `[1,0,0]`; yet `loadDatabase`
returns no error. -/
theorem loadDatabase_absent_version_counterexample :
    specVersion emptyJson ≠ (1, 0, 0) ∧
    (∃ db : Database, loadDatabase id (diskWith emptyJson) (utf8 ".tagger") = Except.ok db) ∧
    ¬ ∃ err : LoadError,
      loadDatabase id (diskWith emptyJson) (utf8 ".tagger") = Except.error err := by
  refine ⟨by decide, ⟨_, rfl⟩, ?_⟩
  rintro ⟨err, h⟩
  cases h

theorem names_nodup_of_injective (m : GoMap Int GoString)
    (hinj : ∀ (id id' : Int) (name : GoString),
      m.lookup id = some name → m.lookup id' = some name → id = id') :
    (m.entries.map Sigma.snd).Nodup := by
  apply List.Nodup.map_on
  · rintro ⟨a, x⟩ ha ⟨b, y⟩ hb hxy
    simp only at hxy
    subst hxy
    have h1 : m.lookup a = some x := AList.mem_lookup_iff.2 ha
    have h2 : m.lookup b = some x := AList.mem_lookup_iff.2 hb
    rw [hinj a b x h1 h2]
  · exact List.Nodup.of_map _ m.nodupKeys

theorem lookup_rebuildTagsByName (l : List (Sigma fun _ : Int => GoString))
    (hl : (l.map Sigma.snd).Nodup) (name : GoString) (id : Int) :
    (rebuildTagsByName l ∅).lookup name = some id ↔ Sigma.mk id name ∈ l := by
  unfold rebuildTagsByName
  rw [lookup_foldl_insert Sigma.snd Sigma.fst l hl]
  simp only [AList.lookup_empty, and_false, or_false, reduceCtorEq]
  constructor
  · rintro ⟨⟨a, x⟩, hp, rfl, rfl⟩; exact hp
  · intro h; exact ⟨_, h, rfl, rfl⟩

theorem unmarshal_tags (doc : DatabaseJson) :
    mapEntries (unmarshal doc emptyDatabase).Tags = (persistedTags doc).entries ∧
    ∀ id : Int, mapGet (unmarshal doc emptyDatabase).Tags id = (persistedTags doc).lookup id := by
  cases hdoc : doc.t with
  | absent =>
    have h : (unmarshal doc emptyDatabase).Tags = some ∅ := by
      simp [unmarshal, hdoc, emptyDatabase]
    rw [h]; unfold persistedTags; rw [hdoc]; exact ⟨rfl, fun _ => rfl⟩
  | null =>
    have h : (unmarshal doc emptyDatabase).Tags = none := by
      simp [unmarshal, hdoc]
    rw [h]; unfold persistedTags; rw [hdoc]; exact ⟨rfl, fun _ => rfl⟩
  | present m =>
    have h : (unmarshal doc emptyDatabase).Tags = some (m ∪ ∅) := by
      simp [unmarshal, hdoc, emptyDatabase]
    rw [h, AList.union_empty]; unfold persistedTags; rw [hdoc]; exact ⟨rfl, fun _ => rfl⟩

/-- C10: when no name stands under two ids in the persisted mapping, after
a successful `loadDatabase` the field `Tags` is the persisted mapping,
`TagsByName` is its exact inverse, and another visiting order of `Tags`
loads a database with the same `TagsByName`. -/
theorem rebuilt_tagsByName_inverse
    (visit : List (Sigma fun _ : Int => GoString) → List (Sigma fun _ : Int => GoString))
    (hvisit : ∀ l, (visit l).Perm l)
    (disk : Disk) (filename : GoString) (doc : DatabaseJson) (db : Database)
    (hfile : disk.file filename = FileState.json doc)
    (hinj : ∀ m : GoMap Int GoString, doc.t = JsonMember.present m →
      ∀ (id id' : Int) (name : GoString),
        m.lookup id = some name → m.lookup id' = some name → id = id')
    (hload : loadDatabase visit disk filename = Except.ok db) :
    (∀ id : Int, mapGet db.Tags id = (persistedTags doc).lookup id) ∧
    (∀ (name : GoString) (id : Int),
      mapGet db.TagsByName name = some id ↔ mapGet db.Tags id = some name) ∧
    (∀ visit' : List (Sigma fun _ : Int => GoString) → List (Sigma fun _ : Int => GoString),
      (∀ l, (visit' l).Perm l) →
      ∃ db' : Database, loadDatabase visit' disk filename = Except.ok db' ∧
        ∀ name : GoString, mapGet db'.TagsByName name = mapGet db.TagsByName name) := by
  obtain ⟨hentries, htags⟩ := unmarshal_tags doc
  have hinj' : ∀ (id id' : Int) (name : GoString),
      (persistedTags doc).lookup id = some name → (persistedTags doc).lookup id' = some name →
        id = id' := by
    cases hdoc : doc.t with
    | absent => intro id id' name h; simp [persistedTags, hdoc] at h
    | null => intro id id' name h; simp [persistedTags, hdoc] at h
    | present m =>
      have : persistedTags doc = m := by unfold persistedTags; rw [hdoc]
      rw [this]; exact hinj m hdoc
  have hnd := names_nodup_of_injective (persistedTags doc) hinj'
  have hver : (unmarshal doc emptyDatabase).Version = (1, 0, 0) := by
    by_contra hne
    rw [loadDatabase_json visit disk filename doc hfile, if_pos hne] at hload
    cases hload
  have key : ∀ visit' : List (Sigma fun _ : Int => GoString) →
        List (Sigma fun _ : Int => GoString),
      (∀ l, (visit' l).Perm l) →
      ∃ db' : Database, loadDatabase visit' disk filename = Except.ok db' ∧
        (∀ id : Int, mapGet db'.Tags id = (persistedTags doc).lookup id) ∧
        ∀ (name : GoString) (id : Int),
          mapGet db'.TagsByName name = some id ↔ (persistedTags doc).lookup id = some name := by
    intro visit' hv'
    rw [loadDatabase_json visit' disk filename doc hfile, if_neg (fun c => c hver)]
    refine ⟨_, rfl, htags, ?_⟩
    intro name id
    show (rebuildTagsByName (visit' (mapEntries (unmarshal doc emptyDatabase).Tags)) ∅).lookup
      name = some id ↔ _
    rw [hentries]
    have hp := hv' (persistedTags doc).entries
    rw [lookup_rebuildTagsByName _ ((hp.map Sigma.snd).nodup_iff.2 hnd), hp.mem_iff]
    exact AList.mem_lookup_iff.symm
  obtain ⟨db1, hload1, htags1, hinv1⟩ := key visit hvisit
  rw [hload] at hload1
  have hdb : db = db1 := by injection hload1
  subst hdb
  refine ⟨htags1, fun name id => by rw [hinv1, htags1], ?_⟩
  intro visit' hv'
  obtain ⟨db2, hload2, _, hinv2⟩ := key visit' hv'
  refine ⟨db2, hload2, ?_⟩
  intro name
  apply Option.ext
  intro id
  rw [Option.mem_def, Option.mem_def, hinv2, hinv1]

theorem twoTags_injective (id id' : Int) (name : GoString)
    (h1 : twoTagsMap.lookup id = some name) (h2 : twoTagsMap.lookup id' = some name) :
    id = id' := by
  have e1 := AList.mem_lookup_iff.1 h1
  have e2 := AList.mem_lookup_iff.1 h2
  have hentries : twoTagsMap.entries = [⟨2, utf8 "blue"⟩, ⟨1, utf8 "red"⟩] := by decide
  rw [hentries] at e1 e2
  simp only [List.mem_cons, Sigma.mk.inj_iff, heq_eq_eq, List.mem_singleton, List.not_mem_nil,
    or_false] at e1 e2
  rcases e1 with ⟨rfl, rfl⟩ | ⟨rfl, rfl⟩ <;> rcases e2 with ⟨rfl, h⟩ | ⟨rfl, h⟩ <;>
    first | rfl | (exact absurd h (by decide))

/-- C10, at a file with two tags, visited in stored order and in reverse
order. -/
theorem rebuilt_tagsByName_inverse_witness :
    ((∀ l : List (Sigma fun _ : Int => GoString), (id l).Perm l) ∧
      (diskWith twoTagsJson).file (utf8 ".tagger") = FileState.json twoTagsJson) ∧
    ∃ db : Database,
      loadDatabase id (diskWith twoTagsJson) (utf8 ".tagger") = Except.ok db ∧
      (∀ (name : GoString) (id : Int),
        mapGet db.TagsByName name = some id ↔ mapGet db.Tags id = some name) ∧
      ∃ db' : Database,
        loadDatabase List.reverse (diskWith twoTagsJson) (utf8 ".tagger") = Except.ok db' ∧
        ∀ name : GoString, mapGet db'.TagsByName name = mapGet db.TagsByName name :=
  ⟨⟨fun l => List.Perm.refl l, rfl⟩, _, rfl,
   (rebuilt_tagsByName_inverse id (fun l => List.Perm.refl l) (diskWith twoTagsJson)
      (utf8 ".tagger") twoTagsJson _ rfl
      (by
        intro m hm
        cases hm
        exact twoTags_injective)
      rfl).2.1,
   (rebuilt_tagsByName_inverse id (fun l => List.Perm.refl l) (diskWith twoTagsJson)
      (utf8 ".tagger") twoTagsJson _ rfl
      (by
        intro m hm
        cases hm
        exact twoTags_injective)
      rfl).2.2 List.reverse (fun l => List.reverse_perm l)⟩


/-! ## The claims on `expandPath` and `fileHandler` -/

theorem expandPath_ok (env : PathEnv) (root candidate resolved r : GoString)
    (hres : filepathAbs env candidate = some resolved)
    (hok : expandPath env root candidate = Except.ok r) :
    r = resolved.drop root.length := by
  unfold expandPath at hok
  rw [hres] at hok
  simp only [] at hok
  by_cases h1 : stringsHasPrefix resolved root = true
  · by_cases h2 : env.stat resolved = true
    · simp only [h1, h2, Bool.not_true, Bool.false_eq_true, if_false, stringsCutPrefix,
        if_true] at hok
      injection hok with hok
      exact hok.symm
    · simp [h1, h2] at hok
  · simp [h1] at hok

/-- C9, as amended: when `expandPath` succeeds, the result is the resolved
path without its first `len(root)` bytes; when the resolved path is `root`
followed by a path separator and a remainder, the result is the separator
followed by that remainder, so it begins with `/`; when the candidate
resolves to `root` itself the result is the empty string. -/
theorem expandPath_result (env : PathEnv) (root candidate resolved r : GoString)
    (hres : filepathAbs env candidate = some resolved)
    (hok : expandPath env root candidate = Except.ok r) :
    r = resolved.drop root.length ∧
    (∀ rest : GoString, resolved = root ++ [separator] ++ rest →
      r = [separator] ++ rest ∧ r.head? = some separator) ∧
    (resolved = root → r = []) := by
  have hr := expandPath_ok env root candidate resolved r hres hok
  refine ⟨hr, ?_, ?_⟩
  · intro rest hrest
    have hr' : r = [separator] ++ rest := by
      rw [hr, hrest, List.append_assoc, List.drop_left]
    exact ⟨hr', by rw [hr']; rfl⟩
  · intro hroot
    rw [hr, hroot, List.drop_length]

/-- C9, as amended, at a file below the root and at the root itself. -/
theorem expandPath_result_witness :
    (filepathAbs envAB (utf8 "x/./y") = some (utf8 "/a/b/x/y") ∧
      expandPath envAB (utf8 "/a/b") (utf8 "x/./y") = Except.ok (utf8 "/x/y")) ∧
    (utf8 "/x/y" = [separator] ++ utf8 "x/y" ∧ (utf8 "/x/y").head? = some separator) ∧
    (filepathAbs envAB (utf8 ".") = some (utf8 "/a/b") ∧
      expandPath envAB (utf8 "/a/b") (utf8 ".") = Except.ok []) :=
  ⟨⟨rfl, rfl⟩,
    (expandPath_result envAB (utf8 "/a/b") (utf8 "x/./y") (utf8 "/a/b/x/y") (utf8 "/x/y")
      rfl rfl).2.1 (utf8 "x/y") rfl,
    ⟨rfl, rfl⟩⟩

/-- C9 fails as stated: the candidate that resolves to the root itself is
accepted and the result is the empty string, which does not begin with the
path separator. -/
theorem expandPath_root_counterexample :
    filepathAbs envAB (utf8 ".") = some (utf8 "/a/b") ∧
    expandPath envAB (utf8 "/a/b") (utf8 ".") = Except.ok [] ∧
    ¬ (([] : GoString).head? = some separator) :=
  ⟨rfl, rfl, by decide⟩

/-- C1, the code at the failing input: with root `/a/b`, the sibling path
`/a/bc/x` passes the check of `expandPath`, which returns `c/x`, and the
request path `/../bc/x` passes the check of `fileHandler`, which goes on to
list `/a/bc/x`. -/
theorem sibling_directory_admitted :
    filepathAbs envAB (utf8 "../bc/x") = some (utf8 "/a/bc/x") ∧
    stringsHasPrefix (utf8 "/a/bc/x") (utf8 "/a/b") = true ∧
    expandPath envAB (utf8 "/a/b") (utf8 "../bc/x") = Except.ok (utf8 "c/x") ∧
    expandPath envAB (utf8 "/a/b") (utf8 "/a/bc/x") = Except.ok (utf8 "c/x") ∧
    fileHandler envAB (utf8 "/../bc/x") =
      HandlerOutcome.listing (utf8 "/a/bc/x") (utf8 "c/x") :=
  ⟨rfl, rfl, rfl, rfl, rfl⟩

end Tagger
